import Mathlib

/-! ktuTools attendance calculator, `src/App.js`.

A shallow embedding of the pure parts of the `App` component:

* `calculateAttendance` (lines 35-76), the attendance projection;
* `addSubject`, `removeSubject`, `handleChange` (lines 13-33), the subject list.

JavaScript numbers are IEEE-754 binary64 values.  Every arithmetic operator
of the source rounds its exact result to the nearest binary64 value (ties to
even), and the outcome of `calculateAttendance` depends on these roundings
(for example `33 / 0.55` evaluates to `59.99999999999999`, not `60`).  The
embedding therefore models binary64 arithmetic exactly: a finite number is
the rational it denotes, every operator rounds with `roundMag`, and `NaN`,
the infinities and the negative zero are values of their own.
-/

namespace KtuTools

/-! ## Binary64 rounding -/

/-- Nearest integer to `x`, ties to the even neighbour. -/
def roundHalfEven (x : ℚ) : ℤ :=
  let f := ⌊x⌋
  if x - f < 1 / 2 then f
  else if 1 / 2 < x - f then f + 1
  else if f % 2 = 0 then f else f + 1

/-- Binary logarithm by repeated halving; `fuel` bounds the number of steps. -/
def log2Fuel : ℕ → ℕ → ℕ
  | 0, _ => 0
  | fuel + 1, n => if n < 2 then 0 else log2Fuel fuel (n / 2) + 1

/-- Position of the leading bit of `n` (`0` for `n = 0`). -/
def natLog2 (n : ℕ) : ℕ := log2Fuel n n

/-- For `x > 0`, the integer `k` with `2 ^ k ≤ x < 2 ^ (k + 1)`. -/
def ilog2 (x : ℚ) : ℤ :=
  let k : ℤ := (natLog2 x.num.natAbs : ℤ) - (natLog2 x.den : ℤ)
  if (2 : ℚ) ^ k ≤ x then k else k - 1

/-- Binary64 exponent used for a magnitude `x`: the binary exponent of `x`,
but never below the exponent `-1022` of the subnormal range. -/
def expo (x : ℚ) : ℤ := max (ilog2 x) (-1022)

/-- Spacing of the binary64 grid around the magnitude `x` (53-bit significand). -/
def ulp (x : ℚ) : ℚ := (2 : ℚ) ^ (expo x - 52)

/-- Round a magnitude `x ≥ 0` to the binary64 grid, exponent unbounded above. -/
def roundMag (x : ℚ) : ℚ := (roundHalfEven (x / ulp x) : ℚ) * ulp x

/-- Magnitudes that round to this value or beyond overflow to an infinity. -/
def overflowThreshold : ℚ := (2 : ℚ) ^ (1024 : ℕ)

/-! ## JavaScript numbers -/

/-- A JavaScript Number.  `fin q` is the finite binary64 value denoting the
rational `q` (`fin 0` is `+0`), `nzero` is `-0`. -/
inductive Num
  | nan
  | inf (neg : Bool)
  | nzero
  | fin (q : ℚ)
  deriving DecidableEq

namespace Num

/-- Sign bit of a number (`true` for negative numbers and for `-0`). -/
def isNeg : Num → Bool
  | nan => false
  | inf n => n
  | nzero => true
  | fin q => decide (q < 0)

/-- The rational denoted by a finite number (`0` for the other values). -/
def val : Num → ℚ
  | fin q => q
  | _ => 0

/-- Whether the number is `+0` or `-0`. -/
def isZero : Num → Bool
  | nzero => true
  | fin q => decide (q = 0)
  | _ => false

/-- The zero with the given sign bit. -/
def zero (neg : Bool) : Num := if neg then nzero else fin 0

/-- The binary64 number with sign bit `neg` nearest to the exact magnitude `m ≥ 0`. -/
def pack (neg : Bool) (m : ℚ) : Num :=
  let r := roundMag m
  if overflowThreshold ≤ r then inf neg
  else if r = 0 then zero neg
  else fin (if neg then -r else r)

/-- The binary64 number nearest to the exact rational `x`
(an exact zero is `+0`, as for a sum in round-to-nearest mode). -/
def ofRat (x : ℚ) : Num := if x = 0 then fin 0 else pack (decide (x < 0)) |x|

/-- JavaScript `x / y`. -/
def div : Num → Num → Num
  | nan, _ => nan
  | _, nan => nan
  | inf _, inf _ => nan
  | inf a, y => inf (xor a y.isNeg)
  | x, inf b => zero (xor x.isNeg b)
  | x, y =>
    if y.isZero then (if x.isZero then nan else inf (xor x.isNeg y.isNeg))
    else if x.isZero then zero (xor x.isNeg y.isNeg)
    else pack (xor x.isNeg y.isNeg) (|x.val| / |y.val|)

/-- JavaScript `x * y`. -/
def mul : Num → Num → Num
  | nan, _ => nan
  | _, nan => nan
  | inf a, y => if y.isZero then nan else inf (xor a y.isNeg)
  | x, inf b => if x.isZero then nan else inf (xor x.isNeg b)
  | x, y =>
    if x.isZero || y.isZero then zero (xor x.isNeg y.isNeg)
    else pack (xor x.isNeg y.isNeg) (|x.val| * |y.val|)

/-- JavaScript `x + y`. -/
def add : Num → Num → Num
  | nan, _ => nan
  | _, nan => nan
  | inf a, inf b => if a = b then inf a else nan
  | inf a, _ => inf a
  | _, inf b => inf b
  | nzero, nzero => nzero
  | x, y => ofRat (x.val + y.val)

/-- JavaScript unary `-x`. -/
def neg : Num → Num
  | nan => nan
  | inf a => inf (!a)
  | nzero => fin 0
  | fin q => if q = 0 then nzero else fin (-q)

/-- JavaScript `x - y`. -/
def sub (x y : Num) : Num := add x (neg y)

/-- JavaScript `Math.floor(x)`. -/
def floor : Num → Num
  | fin q => fin (⌊q⌋ : ℤ)
  | x => x

/-- JavaScript `Math.ceil(x)`. -/
def ceil : Num → Num
  | fin q => if -1 < q ∧ q < 0 then nzero else fin (⌈q⌉ : ℤ)
  | x => x

/-- JavaScript `x < y` on numbers. -/
def lt : Num → Num → Bool
  | nan, _ => false
  | _, nan => false
  | inf a, inf b => a && !b
  | inf a, _ => a
  | _, inf b => !b
  | x, y => decide (x.val < y.val)

/-- JavaScript `x > y` on numbers. -/
def gt (x y : Num) : Bool := lt y x

/-- JavaScript `x <= y` on numbers. -/
def le : Num → Num → Bool
  | nan, _ => false
  | _, nan => false
  | inf a, inf b => a || !b
  | inf a, _ => a
  | _, inf b => !b
  | x, y => decide (x.val ≤ y.val)

/-- JavaScript `x >= y` on numbers. -/
def ge (x y : Num) : Bool := le y x

/-- JavaScript `isNaN(x)` on a number. -/
def isNaN : Num → Bool
  | nan => true
  | _ => false

end Num

/-! ## `parseInt` and `toFixed` -/

/-- White space and line terminators skipped by `parseInt` (code points). -/
def isStrWhiteSpaceChar (c : Char) : Bool :=
  c.toNat ∈ [0x09, 0x0A, 0x0B, 0x0C, 0x0D, 0x20, 0xA0, 0x1680, 0x2000, 0x2001, 0x2002,
    0x2003, 0x2004, 0x2005, 0x2006, 0x2007, 0x2008, 0x2009, 0x200A, 0x2028, 0x2029,
    0x202F, 0x205F, 0x3000, 0xFEFF]

/-- Value of a character as a digit, for radix up to 36. -/
def digitValue (c : Char) : Option ℕ :=
  if '0' ≤ c ∧ c ≤ '9' then some (c.toNat - '0'.toNat)
  else if 'a' ≤ c ∧ c ≤ 'z' then some (c.toNat - 'a'.toNat + 10)
  else if 'A' ≤ c ∧ c ≤ 'Z' then some (c.toNat - 'A'.toNat + 10)
  else none

/-- Whether `c` is a digit of the given radix. -/
def isRadixDigit (radix : ℕ) (c : Char) : Bool :=
  match digitValue c with
  | some d => decide (d < radix)
  | none => false

/-- The sign prefix of the trimmed text: sign bit and the rest. -/
def splitSign : List Char → Bool × List Char
  | '-' :: r => (true, r)
  | '+' :: r => (false, r)
  | cs => (false, cs)

/-- The radix prefix (`0x` or `0X` selects 16, otherwise 10) and the rest. -/
def splitRadix : List Char → ℕ × List Char
  | '0' :: 'x' :: r => (16, r)
  | '0' :: 'X' :: r => (16, r)
  | cs => (10, cs)

/-- JavaScript `parseInt(s)` with no radix argument, on a string: leading white space
is skipped, then an optional sign, an optional `0x` prefix and the longest run of
digits are read; no digit gives `NaN`.  The digits are taken exactly and the value is
rounded to binary64. -/
def parseInt (s : String) : Num :=
  let signed := splitSign (s.toList.dropWhile isStrWhiteSpaceChar)
  let based := splitRadix signed.2
  let ds := based.2.takeWhile (isRadixDigit based.1)
  if ds = [] then Num.nan
  else
    let n : ℕ := ds.foldl (fun acc c => acc * based.1 + (digitValue c).getD 0) 0
    if n = 0 then Num.zero signed.1 else Num.pack signed.1 n

/-- The text returned by `toFixed(2)`: `dec neg n` is the decimal numeral of
`n / 100` with exactly two fraction digits, preceded by `-` when `neg`;
`big neg m` is the text `Number.prototype.toFixed` falls back to for a magnitude
`m ≥ 10^21`; `nan` and `inf` are the texts `NaN`, `Infinity` and `-Infinity`. -/
inductive Fixed
  | nan
  | inf (neg : Bool)
  | big (neg : Bool) (m : ℚ)
  | dec (neg : Bool) (n : ℕ)
  deriving DecidableEq

/-- JavaScript `x.toFixed(2)`: the nearest multiple of `1/100`, the larger one on a tie. -/
def toFixed2 : Num → Fixed
  | Num.nan => Fixed.nan
  | Num.inf n => Fixed.inf n
  | Num.nzero => Fixed.dec false 0
  | Num.fin q =>
    if (10 : ℚ) ^ (21 : ℕ) ≤ |q| then Fixed.big (decide (q < 0)) |q|
    else Fixed.dec (decide (q < 0)) ⌊|q| * 100 + 1 / 2⌋.toNat

/-! ## `calculateAttendance` -/

/-- The object returned by `calculateAttendance`. -/
inductive Result
  | error (message : String)
  | safe (maxBunks : Num) (currentPercent attendanceAfterMaxBunks : Fixed)
      (T A customPercentage : Num)
  | low (classesNeeded : Num) (currentPercent attendanceAfterClasses : Fixed)
      (T A customPercentage : Num)
  deriving DecidableEq

/-- The body of `calculateAttendance` after `T = parseInt(T); A = parseInt(A)`. -/
def calculateAttendanceNum (T A customPercentage : Num) : Option Result :=
  if T.isNaN || A.isNaN then none
  else if A.gt T then
    some (Result.error "Classes attended cannot be greater than classes held!")
  else
    let currentPercent := toFixed2 ((A.div T).mul (Num.fin 100))
    let requiredDecimal := customPercentage.div (Num.fin 100)
    let maxBunks := ((A.div requiredDecimal).sub T).floor
    if maxBunks.ge (Num.fin 0) then
      let attendanceAfterMaxBunks := toFixed2 ((A.div (T.add maxBunks)).mul (Num.fin 100))
      some (Result.safe maxBunks currentPercent attendanceAfterMaxBunks T A customPercentage)
    else
      let classesNeeded :=
        (((requiredDecimal.mul T).sub A).div ((Num.fin 1).sub requiredDecimal)).ceil
      let attendanceAfterClasses :=
        toFixed2 (((A.add classesNeeded).div (T.add classesNeeded)).mul (Num.fin 100))
      some (Result.low classesNeeded currentPercent attendanceAfterClasses T A customPercentage)

/-- The function `calculateAttendance(T, A, customPercentage)` of `App.js`, on the
strings held in a subject record and a numeric percentage; `none` is `null`. -/
def calculateAttendance (T A : String) (customPercentage : Num) : Option Result :=
  calculateAttendanceNum (parseInt T) (parseInt A) customPercentage

/-- The expression bound to `maxBunks` in `calculateAttendance`:
`Math.floor((A / requiredDecimal) - T)` with `requiredDecimal = customPercentage / 100`. -/
def maxBunksValue (T A customPercentage : Num) : Num :=
  ((A.div (customPercentage.div (Num.fin 100))).sub T).floor

/-- The expression bound to `classesNeeded` in `calculateAttendance`:
`Math.ceil((requiredDecimal * T - A) / (1 - requiredDecimal))`. -/
def classesNeededValue (T A customPercentage : Num) : Num :=
  ((((customPercentage.div (Num.fin 100)).mul T).sub A).div
    ((Num.fin 1).sub (customPercentage.div (Num.fin 100)))).ceil

/-- The binary64 value of `(x / y) * 100` for finite numbers `x ≥ 0` and `y > 0` with
`x ≤ y`: the quotient is rounded to binary64, then the product is. -/
def binary64Percent (x y : ℚ) : ℚ := roundMag (roundMag (x / y) * 100)

/-- The text `f` shows the computed value `v` of the exact percentage `x`: `v ≥ 0`
is within `2 ^ (-40)` of `x`, and `f` is the numeral with two fraction digits of the
hundredth nearest to `v`, the larger one when `v` lies halfway between two. -/
def IsRoundedPercent (f : Fixed) (v x : ℚ) : Prop :=
  0 ≤ v ∧ |v - x| ≤ 1 / 2 ^ 40 ∧ f = Fixed.dec false ⌊v * 100 + 1 / 2⌋.toNat

/-! ## The subject list -/

/-- One entry of the `subjects` state: `{ name, T, A, customPercentage }`. -/
structure SubjectRecord where
  name : String
  T : String
  A : String
  customPercentage : Num
  deriving DecidableEq

/-- The record literal `{ name: "", T: "", A: "", customPercentage: 75 }`. -/
def defaultSubject : SubjectRecord := ⟨"", "", "", Num.fin 75⟩

/-- The initial value of the `subjects` state. -/
def initialSubjects : List SubjectRecord := [defaultSubject]

/-- The state set by `addSubject`. -/
def addSubject (subjects : List SubjectRecord) : List SubjectRecord :=
  subjects ++ [defaultSubject]

/-- The elements `x` of a list whose position `i`, counted from `start`, satisfies `keep i`:
`Array.prototype.filter` with a callback that only looks at the index. -/
def filterIndex {α : Type} (keep : ℕ → Bool) : ℕ → List α → List α
  | _, [] => []
  | start, x :: xs =>
    if keep start then x :: filterIndex keep (start + 1) xs
    else filterIndex keep (start + 1) xs

/-- The filter callback `(_, i) => i !== index` of `removeSubject`. -/
def keepOther (index : ℤ) (i : ℕ) : Bool := decide ((i : ℤ) ≠ index)

/-- The state after `removeSubject(index)`: unchanged when there is one subject,
otherwise `subjects.filter((_, i) => i !== index)`. -/
def removeSubject (subjects : List SubjectRecord) (index : ℤ) : List SubjectRecord :=
  if subjects.length = 1 then subjects
  else filterIndex (keepOther index) 0 subjects

/-- The property names `handleChange` is called with. -/
inductive Field
  | name
  | T
  | A
  | customPercentage
  deriving DecidableEq

/-- The assignment `record[field] = ...` of `handleChange`; `parseFloat` is the
JavaScript builtin, applied to the text of the value. -/
def setField (parseFloat : String → Num) (field : Field) (value : String)
    (r : SubjectRecord) : SubjectRecord :=
  match field with
  | Field.customPercentage => { r with customPercentage := parseFloat value }
  | Field.name => { r with name := value }
  | Field.T => { r with T := value }
  | Field.A => { r with A := value }

/-- The state after `handleChange(index, field, value)`.  For an index outside the
list the assignment to `newSubjects[index][field]` throws before `setSubjects`
is reached, so the state stays as it is. -/
def handleChange (parseFloat : String → Num) (subjects : List SubjectRecord)
    (index : ℕ) (field : Field) (value : String) : List SubjectRecord :=
  if index < subjects.length then subjects.modify (setField parseFloat field value) index
  else subjects

/-- One user action on the subject list. -/
inductive Step (parseFloat : String → Num) : List SubjectRecord → List SubjectRecord → Prop
  | add (s : List SubjectRecord) : Step parseFloat s (addSubject s)
  | remove (s : List SubjectRecord) (index : ℤ) : Step parseFloat s (removeSubject s index)
  | change (s : List SubjectRecord) (index : ℕ) (field : Field) (value : String)
      (h : index < s.length) : Step parseFloat s (handleChange parseFloat s index field value)

/-- The states of the subject list that a sequence of actions leads to. -/
inductive Reachable (parseFloat : String → Num) : List SubjectRecord → Prop
  | init : Reachable parseFloat initialSubjects
  | step {s t : List SubjectRecord} (hs : Reachable parseFloat s) (h : Step parseFloat s t) :
      Reachable parseFloat t

/-! ## Rounding lemmas -/

theorem roundHalfEven_intCast (n : ℤ) : roundHalfEven (n : ℚ) = n := by
  simp [roundHalfEven]

theorem roundHalfEven_lower (x : ℚ) : x - 1 / 2 ≤ roundHalfEven x := by
  have h1 := Int.floor_le x
  have h2 := Int.lt_floor_add_one x
  unfold roundHalfEven
  simp only []
  split_ifs <;> push_cast <;> linarith

theorem roundHalfEven_upper (x : ℚ) : (roundHalfEven x : ℚ) ≤ x + 1 / 2 := by
  have h1 := Int.floor_le x
  have h2 := Int.lt_floor_add_one x
  unfold roundHalfEven
  simp only []
  split_ifs <;> push_cast <;> linarith

theorem floor_le_roundHalfEven (x : ℚ) : ⌊x⌋ ≤ roundHalfEven x := by
  unfold roundHalfEven
  simp only []
  split_ifs <;> omega

theorem roundHalfEven_le_floor_add_one (x : ℚ) : roundHalfEven x ≤ ⌊x⌋ + 1 := by
  unfold roundHalfEven
  simp only []
  split_ifs <;> omega

theorem roundHalfEven_mono {x y : ℚ} (h : x ≤ y) : roundHalfEven x ≤ roundHalfEven y := by
  have hf : ⌊x⌋ ≤ ⌊y⌋ := Int.floor_mono h
  rcases hf.lt_or_eq with hlt | heq
  · calc roundHalfEven x ≤ ⌊x⌋ + 1 := roundHalfEven_le_floor_add_one x
      _ ≤ ⌊y⌋ := hlt
      _ ≤ roundHalfEven y := floor_le_roundHalfEven y
  · unfold roundHalfEven
    simp only []
    rw [heq]
    split_ifs <;> first | omega | (exfalso; linarith)

theorem log2Fuel_spec : ∀ (fuel n : ℕ), n ≤ fuel → n ≠ 0 →
    2 ^ log2Fuel fuel n ≤ n ∧ n < 2 ^ (log2Fuel fuel n + 1)
  | 0, n, h, h0 => by omega
  | fuel + 1, n, h, h0 => by
    unfold log2Fuel
    split_ifs with h2
    · constructor <;> simp <;> omega
    · have hn : n / 2 ≠ 0 := by omega
      have := log2Fuel_spec fuel (n / 2) (by omega) hn
      obtain ⟨a, b⟩ := this
      constructor
      · rw [pow_succ]; omega
      · rw [pow_succ]; omega

theorem natLog2_le {n : ℕ} (h : n ≠ 0) : 2 ^ natLog2 n ≤ n :=
  (log2Fuel_spec n n le_rfl h).1

theorem lt_natLog2 {n : ℕ} (h : n ≠ 0) : n < 2 ^ (natLog2 n + 1) :=
  (log2Fuel_spec n n le_rfl h).2

theorem quotient_bracket (a b la lb : ℕ) (hb : 0 < b)
    (a1 : 2 ^ la ≤ a) (a2 : a < 2 ^ (la + 1)) (b1 : 2 ^ lb ≤ b) (b2 : b < 2 ^ (lb + 1)) :
    (2 : ℚ) ^ ((la : ℤ) - (lb : ℤ) - 1) ≤ (a : ℚ) / (b : ℚ) ∧
      (a : ℚ) / (b : ℚ) < (2 : ℚ) ^ ((la : ℤ) - (lb : ℤ) + 1) := by
  have hbpos : (0 : ℚ) < (b : ℚ) := by exact_mod_cast hb
  have two_pos : (0 : ℚ) < 2 := by norm_num
  have two_ne : (2 : ℚ) ≠ 0 := by norm_num
  have a1q : ((2 : ℚ) ^ (la : ℤ)) ≤ (a : ℚ) := by
    rw [zpow_natCast]; exact_mod_cast a1
  have a2q : (a : ℚ) < (2 : ℚ) ^ ((la : ℤ) + 1) := by
    have h : ((la : ℤ) + 1) = ((la + 1 : ℕ) : ℤ) := by push_cast; rfl
    rw [h, zpow_natCast]; exact_mod_cast a2
  have b1q : ((2 : ℚ) ^ (lb : ℤ)) ≤ (b : ℚ) := by
    rw [zpow_natCast]; exact_mod_cast b1
  have b2q : (b : ℚ) < (2 : ℚ) ^ ((lb : ℤ) + 1) := by
    have h : ((lb : ℤ) + 1) = ((lb + 1 : ℕ) : ℤ) := by push_cast; rfl
    rw [h, zpow_natCast]; exact_mod_cast b2
  have ha0 : (0 : ℚ) ≤ (a : ℚ) := by positivity
  constructor
  · have e : (2 : ℚ) ^ ((la : ℤ) - (lb : ℤ) - 1)
        = (2 : ℚ) ^ (la : ℤ) / (2 : ℚ) ^ ((lb : ℤ) + 1) := by
      rw [← zpow_sub₀ two_ne]; congr 1; ring
    rw [e, div_le_div_iff₀ (zpow_pos two_pos _) hbpos]
    calc (2 : ℚ) ^ (la : ℤ) * (b : ℚ) ≤ (a : ℚ) * (b : ℚ) :=
          mul_le_mul_of_nonneg_right a1q hbpos.le
      _ ≤ (a : ℚ) * (2 : ℚ) ^ ((lb : ℤ) + 1) := mul_le_mul_of_nonneg_left b2q.le ha0
  · have e : (2 : ℚ) ^ ((la : ℤ) - (lb : ℤ) + 1)
        = (2 : ℚ) ^ ((la : ℤ) + 1) / (2 : ℚ) ^ (lb : ℤ) := by
      rw [← zpow_sub₀ two_ne]; congr 1; ring
    rw [e, div_lt_div_iff₀ hbpos (zpow_pos two_pos _)]
    calc (a : ℚ) * (2 : ℚ) ^ (lb : ℤ) ≤ (a : ℚ) * (b : ℚ) :=
          mul_le_mul_of_nonneg_left b1q ha0
      _ < (2 : ℚ) ^ ((la : ℤ) + 1) * (b : ℚ) := mul_lt_mul_of_pos_right a2q hbpos

theorem ilog2_spec {x : ℚ} (hx : 0 < x) :
    (2 : ℚ) ^ ilog2 x ≤ x ∧ x < (2 : ℚ) ^ (ilog2 x + 1) := by
  have hnum : 0 < x.num := Rat.num_pos.mpr hx
  have ha0 : x.num.natAbs ≠ 0 := by omega
  have hb0 : x.den ≠ 0 := x.den_nz
  have hxe : (x.num.natAbs : ℚ) / (x.den : ℚ) = x := by
    have h1 : ((x.num.natAbs : ℤ) : ℚ) = (x.num : ℚ) := by
      rw [Int.natAbs_of_nonneg hnum.le]
    have h2 : (x.num.natAbs : ℚ) = (x.num : ℚ) := by rw [← h1, Int.cast_natCast]
    rw [h2]; exact Rat.num_div_den x
  have key := quotient_bracket x.num.natAbs x.den (natLog2 x.num.natAbs) (natLog2 x.den)
    x.den_pos (natLog2_le ha0) (lt_natLog2 ha0) (natLog2_le hb0) (lt_natLog2 hb0)
  rw [hxe] at key
  unfold ilog2
  simp only []
  split_ifs with h
  · exact ⟨h, key.2⟩
  · refine ⟨key.1, ?_⟩
    have : (natLog2 x.num.natAbs : ℤ) - (natLog2 x.den : ℤ) - 1 + 1
        = (natLog2 x.num.natAbs : ℤ) - (natLog2 x.den : ℤ) := by ring
    rw [this]; exact lt_of_not_le h

theorem ilog2_le_of_lt_zpow {x : ℚ} (hx : 0 < x) {k : ℤ} (h : x < (2 : ℚ) ^ (k + 1)) :
    ilog2 x ≤ k := by
  have h1 := (ilog2_spec hx).1
  have h2 : (2 : ℚ) ^ ilog2 x < (2 : ℚ) ^ (k + 1) := lt_of_le_of_lt h1 h
  have := (zpow_lt_zpow_iff_right₀ (by norm_num : (1 : ℚ) < 2)).mp h2
  omega

theorem le_ilog2_of_zpow_le {x : ℚ} (hx : 0 < x) {k : ℤ} (h : (2 : ℚ) ^ k ≤ x) :
    k ≤ ilog2 x := by
  have h1 := (ilog2_spec hx).2
  have h2 : (2 : ℚ) ^ k < (2 : ℚ) ^ (ilog2 x + 1) := lt_of_le_of_lt h h1
  have := (zpow_lt_zpow_iff_right₀ (by norm_num : (1 : ℚ) < 2)).mp h2
  omega

theorem ilog2_mono {x y : ℚ} (hx : 0 < x) (h : x ≤ y) : ilog2 x ≤ ilog2 y :=
  le_ilog2_of_zpow_le (lt_of_lt_of_le hx h) (le_trans (ilog2_spec hx).1 h)

theorem ulp_pos (x : ℚ) : 0 < ulp x := zpow_pos (by norm_num) _

theorem expo_ge (x : ℚ) : -1022 ≤ expo x := le_max_right _ _

theorem roundMag_zero : roundMag 0 = 0 := by
  simp [roundMag, roundHalfEven]

theorem roundHalfEven_nonneg {x : ℚ} (h : 0 ≤ x) : 0 ≤ roundHalfEven x := by
  have := roundHalfEven_mono h
  rwa [show ((0 : ℚ)) = ((0 : ℤ) : ℚ) by simp, roundHalfEven_intCast] at this

theorem roundMag_nonneg {x : ℚ} (h : 0 ≤ x) : 0 ≤ roundMag x := by
  unfold roundMag
  have h1 : 0 ≤ x / ulp x := div_nonneg h (ulp_pos x).le
  have h2 : (0 : ℚ) ≤ (roundHalfEven (x / ulp x) : ℚ) := by
    exact_mod_cast roundHalfEven_nonneg h1
  exact mul_nonneg h2 (ulp_pos x).le

theorem expo_mono {x y : ℚ} (hx : 0 < x) (h : x ≤ y) : expo x ≤ expo y :=
  max_le_max (ilog2_mono hx h) le_rfl

theorem lt_zpow_expo {x : ℚ} (hx : 0 < x) : x < (2 : ℚ) ^ (expo x + 1) := by
  have h1 := (ilog2_spec hx).2
  have h2 : (2 : ℚ) ^ (ilog2 x + 1) ≤ (2 : ℚ) ^ (expo x + 1) :=
    zpow_le_zpow_right₀ (by norm_num) (by have := le_max_left (ilog2 x) (-1022); unfold expo; omega)
  exact lt_of_lt_of_le h1 h2

theorem zpow_split (e : ℤ) : (2 : ℚ) ^ (e + 1) = (2 : ℚ) ^ (53 : ℕ) * (2 : ℚ) ^ (e - 52) := by
  rw [← zpow_natCast, ← zpow_add₀ (by norm_num : (2 : ℚ) ≠ 0)]
  congr 1; push_cast; ring

theorem zpow_split' (e : ℤ) : (2 : ℚ) ^ e = (2 : ℚ) ^ (52 : ℕ) * (2 : ℚ) ^ (e - 52) := by
  rw [← zpow_natCast, ← zpow_add₀ (by norm_num : (2 : ℚ) ≠ 0)]
  congr 1; push_cast; ring

theorem roundMag_le_zpow {x : ℚ} (hx : 0 < x) : roundMag x ≤ (2 : ℚ) ^ (expo x + 1) := by
  unfold roundMag
  have hu := ulp_pos x
  have h1 : x / ulp x ≤ (((2 : ℤ) ^ (53 : ℕ) : ℤ) : ℚ) := by
    rw [div_le_iff₀ hu]
    have := lt_zpow_expo hx
    rw [zpow_split] at this
    push_cast
    exact this.le
  have h2 := roundHalfEven_mono h1
  rw [roundHalfEven_intCast] at h2
  have h3 : (roundHalfEven (x / ulp x) : ℚ) ≤ (2 : ℚ) ^ (53 : ℕ) := by exact_mod_cast h2
  rw [zpow_split]
  exact mul_le_mul_of_nonneg_right h3 hu.le

theorem zpow_le_roundMag {x : ℚ} (h : (2 : ℚ) ^ expo x ≤ x) : (2 : ℚ) ^ expo x ≤ roundMag x := by
  unfold roundMag
  have hu := ulp_pos x
  have h1 : (((2 : ℤ) ^ (52 : ℕ) : ℤ) : ℚ) ≤ x / ulp x := by
    rw [le_div_iff₀ hu]
    rw [zpow_split'] at h
    push_cast
    exact h
  have h2 := roundHalfEven_mono h1
  rw [roundHalfEven_intCast] at h2
  have h3 : (2 : ℚ) ^ (52 : ℕ) ≤ (roundHalfEven (x / ulp x) : ℚ) := by exact_mod_cast h2
  rw [zpow_split' (expo x)]
  exact mul_le_mul_of_nonneg_right h3 hu.le

theorem roundMag_mono {x y : ℚ} (hx : 0 ≤ x) (h : x ≤ y) : roundMag x ≤ roundMag y := by
  rcases hx.lt_or_eq with hpos | h0
  · have he := expo_mono hpos h
    rcases he.lt_or_eq with hlt | heq
    · have hy : 0 < y := lt_of_lt_of_le hpos h
      have hey : expo y = ilog2 y := by
        unfold expo at hlt ⊢
        have := expo_ge x
        unfold expo at this
        rcases le_total (ilog2 y) (-1022) with c | c
        · rw [max_eq_right c] at hlt; omega
        · exact max_eq_left c
      have h1 : (2 : ℚ) ^ expo y ≤ y := by rw [hey]; exact (ilog2_spec hy).1
      calc roundMag x ≤ (2 : ℚ) ^ (expo x + 1) := roundMag_le_zpow hpos
        _ ≤ (2 : ℚ) ^ expo y := zpow_le_zpow_right₀ (by norm_num) (by omega)
        _ ≤ roundMag y := zpow_le_roundMag h1
    · unfold roundMag
      have hu : ulp x = ulp y := by unfold ulp; rw [heq]
      rw [hu]
      have h1 : x / ulp y ≤ y / ulp y := div_le_div_of_nonneg_right h (ulp_pos y).le
      have h2 : (roundHalfEven (x / ulp y) : ℚ) ≤ (roundHalfEven (y / ulp y) : ℚ) := by
        exact_mod_cast roundHalfEven_mono h1
      exact mul_le_mul_of_nonneg_right h2 (ulp_pos y).le
  · rw [← h0, roundMag_zero]
    exact roundMag_nonneg (h0 ▸ h)

theorem roundMag_error (x : ℚ) : |roundMag x - x| ≤ ulp x / 2 := by
  unfold roundMag
  have hu := ulp_pos x
  have h1 := roundHalfEven_lower (x / ulp x)
  have h2 := roundHalfEven_upper (x / ulp x)
  have e : x = x / ulp x * ulp x := by field_simp
  rw [abs_le]
  constructor
  · have := mul_le_mul_of_nonneg_right h1 hu.le
    nlinarith
  · have := mul_le_mul_of_nonneg_right h2 hu.le
    nlinarith

theorem roundMag_grid (N : ℕ) (k : ℤ) (hN : N < 2 ^ 53) (hk : -1074 ≤ k) :
    roundMag ((N : ℚ) * (2 : ℚ) ^ k) = (N : ℚ) * (2 : ℚ) ^ k := by
  rcases Nat.eq_zero_or_pos N with h0 | hpos
  · subst h0; simp [roundMag_zero]
  · have two_ne : (2 : ℚ) ≠ 0 := by norm_num
    have hx : 0 < (N : ℚ) * (2 : ℚ) ^ k :=
      mul_pos (by exact_mod_cast hpos) (zpow_pos (by norm_num) _)
    have hlt : (N : ℚ) * (2 : ℚ) ^ k < (2 : ℚ) ^ (k + 52 + 1) := by
      rw [zpow_split (k + 52)]
      have e : k + 52 - 52 = k := by ring
      rw [e]
      have : (N : ℚ) < (2 : ℚ) ^ (53 : ℕ) := by exact_mod_cast hN
      exact mul_lt_mul_of_pos_right this (zpow_pos (by norm_num) _)
    have he : expo ((N : ℚ) * (2 : ℚ) ^ k) ≤ k + 52 := by
      unfold expo
      exact max_le (ilog2_le_of_lt_zpow hx hlt) (by omega)
    obtain ⟨j, hj⟩ : ∃ j : ℕ, (j : ℤ) = k - (expo ((N : ℚ) * (2 : ℚ) ^ k) - 52) :=
      ⟨(k - (expo ((N : ℚ) * (2 : ℚ) ^ k) - 52)).toNat, by
        rw [Int.toNat_of_nonneg]; omega⟩
    have hk2 : (2 : ℚ) ^ k = (2 : ℚ) ^ j * ulp ((N : ℚ) * (2 : ℚ) ^ k) := by
      unfold ulp
      rw [← zpow_natCast, ← zpow_add₀ two_ne]
      congr 1; omega
    have key : ∀ (x u : ℚ), 0 < u → x = (N : ℚ) * (2 : ℚ) ^ k → (2 : ℚ) ^ k = (2 : ℚ) ^ j * u →
        (roundHalfEven (x / u) : ℚ) * u = x := by
      intro x u hu hxd hku
      have hq : x / u = (((N * 2 ^ j : ℕ) : ℤ) : ℚ) := by
        rw [div_eq_iff hu.ne', hxd, hku]; push_cast; ring
      rw [hq, roundHalfEven_intCast, ← hq]
      exact div_mul_cancel₀ x hu.ne'
    exact key _ _ (ulp_pos _) rfl hk2

theorem roundMag_grid_le (N : ℕ) (k : ℤ) (hN : N ≤ 2 ^ 53) (hk : -1074 ≤ k) :
    roundMag ((N : ℚ) * (2 : ℚ) ^ k) = (N : ℚ) * (2 : ℚ) ^ k := by
  rcases hN.lt_or_eq with h | h
  · exact roundMag_grid N k h hk
  · have e : (N : ℚ) * (2 : ℚ) ^ k = ((2 ^ 52 : ℕ) : ℚ) * (2 : ℚ) ^ (k + 1) := by
      rw [h, zpow_add₀ (by norm_num : (2 : ℚ) ≠ 0)]
      push_cast; ring
    rw [e]
    exact roundMag_grid (2 ^ 52) (k + 1) (by norm_num) (by omega)

theorem roundMag_eq_grid {x : ℚ} (hx : 0 ≤ x) :
    ∃ (N : ℕ) (k : ℤ), N ≤ 2 ^ 53 ∧ -1074 ≤ k ∧ roundMag x = (N : ℚ) * (2 : ℚ) ^ k := by
  refine ⟨(roundHalfEven (x / ulp x)).toNat, expo x - 52, ?_, ?_, ?_⟩
  · rcases hx.lt_or_eq with hpos | h0
    · have hu := ulp_pos x
      have h1 : x / ulp x ≤ (((2 : ℤ) ^ (53 : ℕ) : ℤ) : ℚ) := by
        rw [div_le_iff₀ hu]
        have := lt_zpow_expo hpos
        rw [zpow_split] at this
        push_cast
        exact this.le
      have h2 := roundHalfEven_mono h1
      rw [roundHalfEven_intCast] at h2
      omega
    · subst h0; simp [roundHalfEven]
  · have := expo_ge x; omega
  · unfold roundMag
    have h0 : 0 ≤ roundHalfEven (x / ulp x) :=
      roundHalfEven_nonneg (div_nonneg hx (ulp_pos x).le)
    have : (((roundHalfEven (x / ulp x)).toNat : ℤ) : ℚ) = (roundHalfEven (x / ulp x) : ℚ) := by
      rw [Int.toNat_of_nonneg h0]
    rw [← this, Int.cast_natCast]
    rfl

theorem roundMag_idem {x : ℚ} (hx : 0 ≤ x) : roundMag (roundMag x) = roundMag x := by
  obtain ⟨N, k, hN, hk, h⟩ := roundMag_eq_grid hx
  rw [h]
  exact roundMag_grid_le N k hN hk

theorem roundMag_natCast (n : ℕ) (h : n < 2 ^ 53) : roundMag (n : ℚ) = n := by
  have := roundMag_grid n 0 h (by norm_num)
  simpa using this

/-! ## The subject list: lemmas -/

theorem filterIndex_length_le {α : Type} (keep : ℕ → Bool) :
    ∀ (xs : List α) (start : ℕ), (filterIndex keep start xs).length ≤ xs.length
  | [], _ => by simp [filterIndex]
  | x :: xs, start => by
    have := filterIndex_length_le keep xs (start + 1)
    unfold filterIndex
    split_ifs <;> simp <;> omega

theorem filterIndex_keepOther_of_lt {α : Type} (index : ℤ) :
    ∀ (xs : List α) (start : ℕ), index < start → filterIndex (keepOther index) start xs = xs
  | [], _, _ => by simp [filterIndex]
  | x :: xs, start, h => by
    have ih := filterIndex_keepOther_of_lt index xs (start + 1) (by push_cast; omega)
    have hk : keepOther index start = true := by
      unfold keepOther; exact decide_eq_true (by omega)
    unfold filterIndex
    rw [if_pos hk, ih]

theorem filterIndex_keepOther_eq_eraseIdx {α : Type} :
    ∀ (xs : List α) (start i : ℕ),
      filterIndex (keepOther ((start + i : ℕ) : ℤ)) start xs = xs.eraseIdx i
  | [], _, _ => by simp [filterIndex]
  | x :: xs, start, 0 => by
    have hk : ¬ keepOther ((start + 0 : ℕ) : ℤ) start = true := by
      unfold keepOther; simp
    unfold filterIndex
    rw [if_neg hk]
    rw [filterIndex_keepOther_of_lt _ xs (start + 1) (by push_cast; omega)]
    rfl
  | x :: xs, start, i + 1 => by
    have hk : keepOther ((start + (i + 1) : ℕ) : ℤ) start = true := by
      unfold keepOther; exact decide_eq_true (by push_cast; omega)
    have ih := filterIndex_keepOther_eq_eraseIdx xs (start + 1) i
    have e : start + 1 + i = start + (i + 1) := by omega
    rw [e] at ih
    unfold filterIndex
    rw [if_pos hk, ih]
    rfl

theorem filterIndex_keepOther_length_ge {α : Type} (index : ℤ) :
    ∀ (xs : List α) (start : ℕ),
      xs.length ≤ (filterIndex (keepOther index) start xs).length + 1
  | [], _ => by simp [filterIndex]
  | x :: xs, start => by
    unfold filterIndex
    by_cases h : (start : ℤ) = index
    · have hk : ¬ keepOther index start = true := by
        unfold keepOther; simp [h]
      rw [if_neg hk, filterIndex_keepOther_of_lt index xs (start + 1) (by push_cast; omega)]
      simp
    · have hk : keepOther index start = true := by
        unfold keepOther; exact decide_eq_true h
      have := filterIndex_keepOther_length_ge index xs (start + 1)
      rw [if_pos hk]
      simp only [List.length_cons]
      omega

theorem removeSubject_length_pos (s : List SubjectRecord) (index : ℤ) (h : 1 ≤ s.length) :
    1 ≤ (removeSubject s index).length := by
  unfold removeSubject
  split_ifs with h1
  · exact h
  · have := filterIndex_keepOther_length_ge index s 0
    omega

theorem handleChange_length (parseFloat : String → Num) (s : List SubjectRecord)
    (index : ℕ) (field : Field) (value : String) :
    (handleChange parseFloat s index field value).length = s.length := by
  unfold handleChange
  split_ifs <;> simp

theorem reachable_length_pos (parseFloat : String → Num) {s : List SubjectRecord}
    (h : Reachable parseFloat s) : 1 ≤ s.length := by
  induction h with
  | init => simp [initialSubjects]
  | step _ hstep ih =>
    cases hstep with
    | add => simp [addSubject]
    | remove index => exact removeSubject_length_pos _ index ih
    | change index field value h => rw [handleChange_length]; exact ih

/-- C10: the subject list starts with one record; every state reached by `addSubject`,
`removeSubject` (any index) and `handleChange` (valid index) has at least one record;
`removeSubject` leaves a one-record list unchanged and, on any other list with a valid
index, deletes exactly the record at that position, keeping the rest in order. -/
theorem C10_subject_list_nonempty (parseFloat : String → Num) :
    initialSubjects.length = 1 ∧
    (∀ s, Reachable parseFloat s → 1 ≤ s.length) ∧
    (∀ (s : List SubjectRecord) (index : ℤ), s.length = 1 → removeSubject s index = s) ∧
    (∀ (s : List SubjectRecord) (i : ℕ), s.length ≠ 1 → i < s.length →
      removeSubject s (i : ℤ) = s.eraseIdx i ∧
      (removeSubject s (i : ℤ)).length + 1 = s.length) := by
  refine ⟨rfl, fun s hs => reachable_length_pos parseFloat hs, ?_, ?_⟩
  · intro s index h
    simp [removeSubject, h]
  · intro s i h1 hi
    have e : removeSubject s (i : ℤ) = s.eraseIdx i := by
      unfold removeSubject
      rw [if_neg h1]
      have := filterIndex_keepOther_eq_eraseIdx s 0 i
      simpa using this
    refine ⟨e, ?_⟩
    rw [e, List.length_eraseIdx]
    simp [hi]
    omega

/-! ## Number operations on finite values -/

theorem overflowThreshold_pos : 0 < overflowThreshold := by
  unfold overflowThreshold; positivity

theorem pack_false (m : ℚ) :
    Num.pack false m =
      if overflowThreshold ≤ roundMag m then Num.inf false else Num.fin (roundMag m) := by
  unfold Num.pack Num.zero
  by_cases h1 : overflowThreshold ≤ roundMag m
  · simp [h1]
  · by_cases h2 : roundMag m = 0
    · simp [h1, h2]
    · simp [h1, h2]

theorem pack_true (m : ℚ) :
    Num.pack true m =
      if overflowThreshold ≤ roundMag m then Num.inf true
      else if roundMag m = 0 then Num.nzero else Num.fin (-roundMag m) := by
  unfold Num.pack Num.zero
  simp

theorem ofRat_nonneg {x : ℚ} (h : 0 ≤ x) : Num.ofRat x = Num.pack false x := by
  unfold Num.ofRat
  split_ifs with h0
  · subst h0
    rw [pack_false, roundMag_zero, if_neg (not_le.mpr overflowThreshold_pos)]
  · have : ¬ x < 0 := not_lt.mpr h
    simp [this, abs_of_nonneg h]

theorem ofRat_neg {x : ℚ} (h : x < 0) : Num.ofRat x = Num.pack true (-x) := by
  unfold Num.ofRat
  rw [if_neg h.ne]
  simp [h, abs_of_neg h]

theorem div_fin_fin {n d : ℚ} (hn : 0 ≤ n) (hd : 0 < d) :
    (Num.fin n).div (Num.fin d) = Num.pack false (n / d) := by
  have hd0 : ¬ d = 0 := hd.ne'
  have hdn : ¬ d < 0 := not_lt.mpr hd.le
  have hnn : ¬ n < 0 := not_lt.mpr hn
  rcases hn.lt_or_eq with hpos | h0
  · have hn0 : ¬ n = 0 := hpos.ne'
    simp [Num.div, Num.isZero, Num.isNeg, Num.val, hd0, hdn, hnn, hn0,
      abs_of_pos hpos, abs_of_pos hd]
  · subst h0
    rw [pack_false]
    simp [Num.div, Num.isZero, Num.isNeg, Num.val, hd0, hdn, Num.zero, roundMag_zero,
      not_le.mpr overflowThreshold_pos]

theorem div_fin_zero {n : ℚ} (hn : 0 < n) :
    (Num.fin n).div (Num.fin 0) = Num.inf false := by
  have hn0 : ¬ n = 0 := hn.ne'
  have hnn : ¬ n < 0 := not_lt.mpr hn.le
  simp [Num.div, Num.isZero, Num.isNeg, hn0, hnn]

theorem div_fin_inf {n : ℚ} (hn : 0 ≤ n) :
    (Num.fin n).div (Num.inf false) = Num.fin 0 := by
  have hnn : ¬ n < 0 := not_lt.mpr hn
  simp [Num.div, Num.isNeg, Num.zero, hnn]

theorem mul_fin_fin {x y : ℚ} (hx : 0 ≤ x) (hy : 0 ≤ y) :
    (Num.fin x).mul (Num.fin y) = Num.pack false (x * y) := by
  have hxn : ¬ x < 0 := not_lt.mpr hx
  have hyn : ¬ y < 0 := not_lt.mpr hy
  by_cases h0 : x = 0 ∨ y = 0
  · have hz : x * y = 0 := mul_eq_zero.mpr h0
    rw [hz, pack_false, roundMag_zero, if_neg (not_le.mpr overflowThreshold_pos)]
    rcases h0 with h | h <;>
      simp [Num.mul, Num.isZero, Num.isNeg, Num.zero, h, hxn, hyn]
  · push_neg at h0
    simp [Num.mul, Num.isZero, Num.isNeg, Num.val, h0.1, h0.2, hxn, hyn,
      abs_of_nonneg hx, abs_of_nonneg hy]

theorem add_fin_fin (x y : ℚ) : (Num.fin x).add (Num.fin y) = Num.ofRat (x + y) := by
  simp [Num.add, Num.val]

theorem sub_fin_fin (x y : ℚ) : (Num.fin x).sub (Num.fin y) = Num.ofRat (x - y) := by
  by_cases h : y = 0
  · subst h; simp [Num.sub, Num.neg, Num.add, Num.val]
  · simp [Num.sub, Num.neg, Num.add, Num.val, h, sub_eq_add_neg]

theorem sub_inf_fin (b : Bool) (y : ℚ) : (Num.inf b).sub (Num.fin y) = Num.inf b := by
  by_cases h : y = 0
  · subst h; simp [Num.sub, Num.neg, Num.add]
  · simp [Num.sub, Num.neg, Num.add, h]

theorem add_fin_inf (x : ℚ) (b : Bool) : (Num.fin x).add (Num.inf b) = Num.inf b := by
  simp [Num.add]

/-! ## Order lemmas for numbers -/

theorem pack_ne_nan (b : Bool) (m : ℚ) : Num.pack b m ≠ Num.nan := by
  unfold Num.pack Num.zero
  simp only []
  split_ifs <;> simp

theorem ofRat_ne_nan (x : ℚ) : Num.ofRat x ≠ Num.nan := by
  unfold Num.ofRat
  split_ifs
  · simp
  · exact pack_ne_nan _ _

theorem le_inf_false {x : Num} (h : x ≠ Num.nan) : x.le (Num.inf false) = true := by
  cases x <;> simp [Num.le] at h ⊢

theorem inf_true_le {x : Num} (h : x ≠ Num.nan) : (Num.inf true).le x = true := by
  cases x <;> simp [Num.le] at h ⊢

theorem le_fin_fin (x y : ℚ) : (Num.fin x).le (Num.fin y) = decide (x ≤ y) := by
  simp [Num.le, Num.val]

theorem le_self {x : Num} (h : x ≠ Num.nan) : x.le x = true := by
  cases x <;> simp [Num.le] at h ⊢

theorem pack_false_ge_zero {m : ℚ} (hm : 0 ≤ m) : (Num.fin 0).le (Num.pack false m) = true := by
  rw [pack_false]
  split_ifs
  · simp [Num.le]
  · simp [Num.le, Num.val, roundMag_nonneg hm]

theorem pack_false_mono {x y : ℚ} (hx : 0 ≤ x) (h : x ≤ y) :
    (Num.pack false x).le (Num.pack false y) = true := by
  have hm := roundMag_mono hx h
  rw [pack_false, pack_false]
  split_ifs with h1 h2 h2
  · simp [Num.le]
  · exact absurd (le_trans h1 hm) h2
  · simp [Num.le]
  · simp [Num.le, Num.val, hm]

theorem pack_true_le_pack_false {x y : ℚ} (hx : 0 ≤ x) (hy : 0 ≤ y) :
    (Num.pack true x).le (Num.pack false y) = true := by
  have h1 := roundMag_nonneg hx
  have h2 := roundMag_nonneg hy
  rw [pack_true, pack_false]
  split_ifs <;> simp [Num.le, Num.val, h2]; linarith

theorem pack_true_anti {x y : ℚ} (hy : 0 ≤ y) (h : y ≤ x) :
    (Num.pack true x).le (Num.pack true y) = true := by
  have hm := roundMag_mono hy h
  have h2 := roundMag_nonneg hy
  rw [pack_true, pack_true]
  by_cases a : overflowThreshold ≤ roundMag x
  · rw [if_pos a]
    exact inf_true_le (by split_ifs <;> simp)
  · have b : ¬ overflowThreshold ≤ roundMag y := fun hb => a (le_trans hb hm)
    rw [if_neg a, if_neg b]
    by_cases c : roundMag x = 0
    · have d : roundMag y = 0 := le_antisymm (c ▸ hm) h2
      simp [c, d, Num.le, Num.val]
    · rw [if_neg c]
      split_ifs with d
      · simp only [Num.le, Num.val, decide_eq_true_eq]
        have := roundMag_nonneg (le_trans hy h)
        linarith
      · simp only [Num.le, Num.val, decide_eq_true_eq]
        linarith

theorem ofRat_mono {x y : ℚ} (h : x ≤ y) : (Num.ofRat x).le (Num.ofRat y) = true := by
  rcases lt_or_le x 0 with hx | hx
  · rcases lt_or_le y 0 with hy | hy
    · rw [ofRat_neg hx, ofRat_neg hy]
      exact pack_true_anti (by linarith) (by linarith)
    · rw [ofRat_neg hx, ofRat_nonneg hy]
      exact pack_true_le_pack_false (by linarith) hy
  · rw [ofRat_nonneg hx, ofRat_nonneg (le_trans hx h)]
    exact pack_false_mono hx h

theorem floor_mono {x y : Num} (h : x.le y = true) : x.floor.le y.floor = true := by
  cases x with
  | nan => simp [Num.le] at h
  | inf a =>
    cases y with
    | nan => simp [Num.le] at h
    | inf b => simpa [Num.floor] using h
    | nzero => simpa [Num.floor] using h
    | fin q => simpa [Num.floor, Num.le] using h
  | nzero =>
    cases y with
    | nan => simp [Num.le] at h
    | inf b => simpa [Num.floor] using h
    | nzero => simpa [Num.floor] using h
    | fin q =>
      simp only [Num.le, Num.val, decide_eq_true_eq] at h
      simp only [Num.floor, Num.le, Num.val, decide_eq_true_eq]
      exact_mod_cast Int.floor_nonneg.mpr h
  | fin p =>
    cases y with
    | nan => simp [Num.le] at h
    | inf b => simpa [Num.floor, Num.le] using h
    | nzero =>
      simp only [Num.le, Num.val, decide_eq_true_eq] at h
      simp only [Num.floor, Num.le, Num.val, decide_eq_true_eq]
      have : ⌊p⌋ ≤ (0 : ℤ) := by
        have := Int.floor_mono h
        simpa using this
      exact_mod_cast this
    | fin q =>
      simp only [Num.le, Num.val, decide_eq_true_eq] at h
      simp only [Num.floor, Num.le, Num.val, decide_eq_true_eq]
      exact_mod_cast Int.floor_mono h

theorem ceil_mono {x y : Num} (h : x.le y = true) : x.ceil.le y.ceil = true := by
  cases x with
  | nan => simp [Num.le] at h
  | inf a =>
    cases y with
    | nan => simp [Num.le] at h
    | inf b => simpa [Num.ceil] using h
    | nzero => simpa [Num.ceil] using h
    | fin q =>
      simp only [Num.le] at h
      simp only [Num.ceil]
      split_ifs <;> simp [Num.le, h]
  | nzero =>
    cases y with
    | nan => simp [Num.le] at h
    | inf b => simpa [Num.ceil] using h
    | nzero => simpa [Num.ceil] using h
    | fin q =>
      simp only [Num.le, Num.val, decide_eq_true_eq] at h
      simp only [Num.ceil]
      split_ifs with c
      · simp [Num.le, Num.val]
      · simp only [Num.le, Num.val, decide_eq_true_eq]
        have : (0 : ℤ) ≤ ⌈q⌉ := Int.ceil_nonneg h
        exact_mod_cast this
  | fin p =>
    cases y with
    | nan => simp [Num.le] at h
    | inf b =>
      simp only [Num.le] at h
      simp only [Num.ceil]
      split_ifs <;> simp [Num.le, h]
    | nzero =>
      simp only [Num.le, Num.val, decide_eq_true_eq] at h
      simp only [Num.ceil]
      split_ifs with c
      · simp [Num.le, Num.val]
      · simp only [Num.le, Num.val, decide_eq_true_eq]
        have : ⌈p⌉ ≤ (0 : ℤ) := by
          rw [Int.ceil_le]; exact_mod_cast h
        exact_mod_cast this
    | fin q =>
      simp only [Num.le, Num.val, decide_eq_true_eq] at h
      have hc : ⌈p⌉ ≤ ⌈q⌉ := Int.ceil_mono h
      have hcq : ((⌈p⌉ : ℤ) : ℚ) ≤ ((⌈q⌉ : ℤ) : ℚ) := by exact_mod_cast hc
      simp only [Num.ceil]
      split_ifs with c d d
      · simp [Num.le, Num.val]
      · simp only [Num.le, Num.val, decide_eq_true_eq]
        have : (0 : ℤ) ≤ ⌈q⌉ := by
          have h2 : (-1 : ℚ) < q := lt_of_lt_of_le c.1 h
          have h3 : (-1 : ℤ) < ⌈q⌉ := by
            rw [Int.lt_ceil]; exact_mod_cast h2
          omega
        exact_mod_cast this
      · simp only [Num.le, Num.val, decide_eq_true_eq]
        have : ⌈p⌉ ≤ (0 : ℤ) := by
          rw [Int.ceil_le]; exact_mod_cast (le_trans h d.2.le)
        exact_mod_cast this
      · simp only [Num.le, Num.val, decide_eq_true_eq]
        exact hcq

theorem floor_ge_zero {x : Num} (h : (Num.fin 0).le x = true) :
    (Num.fin 0).le x.floor = true := by
  have := floor_mono h
  simpa [Num.floor] using this

/-! ## Parsed integers are binary64 values -/

theorem pack_eq_fin {b : Bool} {m q : ℚ} (hm : 0 ≤ m) (h : Num.pack b m = Num.fin q) :
    roundMag |q| = |q| ∧ |q| < overflowThreshold := by
  have hr := roundMag_nonneg hm
  cases b with
  | false =>
    rw [pack_false] at h
    split_ifs at h with h1
    have hq : roundMag m = q := by simpa using h
    rw [← hq, abs_of_nonneg hr]
    exact ⟨roundMag_idem hm, not_le.mp h1⟩
  | true =>
    rw [pack_true] at h
    split_ifs at h with h1 h2
    have hq : -roundMag m = q := by simpa using h
    rw [← hq, abs_neg, abs_of_nonneg hr]
    exact ⟨roundMag_idem hm, not_le.mp h1⟩

theorem parseInt_eq_fin {s : String} {q : ℚ} (h : parseInt s = Num.fin q) :
    roundMag |q| = |q| ∧ |q| < overflowThreshold := by
  unfold parseInt at h
  simp only [] at h
  split_ifs at h with h1 h2
  · unfold Num.zero at h
    split_ifs at h
    have hq : q = 0 := by simpa using h.symm
    subst hq
    simp [roundMag_zero, overflowThreshold_pos]
  · exact pack_eq_fin (Nat.cast_nonneg _) h

theorem roundMag_one : roundMag 1 = 1 := by
  have := roundMag_natCast 1 (by norm_num)
  simpa using this

theorem roundMag_hundred : roundMag 100 = 100 := by
  have := roundMag_natCast 100 (by norm_num)
  simpa using this

theorem one_lt_overflowThreshold : (1 : ℚ) < overflowThreshold := by
  unfold overflowThreshold
  exact one_lt_pow₀ (by norm_num) (by norm_num)

theorem hundred_lt_overflowThreshold : (100 : ℚ) < overflowThreshold := by
  unfold overflowThreshold
  calc (100 : ℚ) < 2 ^ 7 := by norm_num
    _ ≤ 2 ^ 1024 := pow_le_pow_right₀ (by norm_num) (by norm_num)

/-- The number bound to `requiredDecimal` for a percentage in `(0, 100]`. -/
theorem requiredDecimal_eq {p : ℚ} (hp : 0 < p) (hp100 : p ≤ 100) :
    (Num.fin p).div (Num.fin 100) = Num.fin (roundMag (p / 100)) ∧
      0 ≤ roundMag (p / 100) ∧ roundMag (p / 100) ≤ 1 := by
  have h0 : 0 ≤ p / 100 := by positivity
  have h1 : p / 100 ≤ 1 := by rw [div_le_one (by norm_num)]; exact hp100
  have hm : roundMag (p / 100) ≤ 1 := by
    have := roundMag_mono h0 h1
    rwa [roundMag_one] at this
  refine ⟨?_, roundMag_nonneg h0, hm⟩
  rw [div_fin_fin hp.le (by norm_num), pack_false,
    if_neg (not_le.mpr (lt_of_le_of_lt hm one_lt_overflowThreshold))]

/-- When `a ≥ δ * t`, the value computed for `maxBunks` is `>= 0`. -/
theorem maxBunks_ge_zero {t a δ : ℚ} (ht : roundMag t = t) (ha : 0 < a) (hδ : 0 ≤ δ)
    (h : δ * t ≤ a) :
    (Num.fin 0).le ((((Num.fin a).div (Num.fin δ)).sub (Num.fin t)).floor) = true := by
  rcases hδ.lt_or_eq with hpos | h0
  · rw [div_fin_fin ha.le hpos, pack_false]
    split_ifs with h1
    · rw [sub_inf_fin]; simp [Num.floor, Num.le]
    · have hle : t ≤ a / δ := by rw [le_div_iff₀ hpos]; linarith
      have hr : t ≤ roundMag (a / δ) := by
        rcases le_or_lt 0 t with h0 | h0
        · have := roundMag_mono h0 hle
          rwa [ht] at this
        · exact le_trans h0.le (roundMag_nonneg (by positivity))
      rw [sub_fin_fin, ofRat_nonneg (by linarith)]
      exact floor_ge_zero (pack_false_ge_zero (by linarith))
  · subst h0
    rw [div_fin_zero ha, sub_inf_fin]; simp [Num.floor, Num.le]

theorem toFixed2_hundred : toFixed2 (Num.fin 100) = Fixed.dec false 10000 := by
  have h1 : ¬ ((10 : ℚ) ^ 21 ≤ |(100 : ℚ)|) := by norm_num
  have h2 : ⌊|(100 : ℚ)| * 100 + 1 / 2⌋ = 10000 := by
    rw [Int.floor_eq_iff]; norm_num
  simp only [toFixed2]
  rw [if_neg h1, h2]
  simp

/-- C8: when held and attended parse to the same positive integer and the required
percentage lies in `(0, 100]`, the result is `safe`, `currentPercent` is `100.00` and
`maxBunks >= 0`. -/
theorem C8_full_attendance (T A : String) (held : ℤ) (p : ℚ)
    (hT : parseInt T = Num.fin (held : ℚ)) (hA : parseInt A = Num.fin (held : ℚ))
    (hheld : 0 < held) (hp : 0 < p) (hp100 : p ≤ 100) :
    ∃ maxBunks after,
      calculateAttendance T A (Num.fin p) =
        some (Result.safe maxBunks (Fixed.dec false 10000) after
          (Num.fin (held : ℚ)) (Num.fin (held : ℚ)) (Num.fin p)) ∧
      maxBunks.ge (Num.fin 0) = true := by
  have ht : (0 : ℚ) < (held : ℚ) := by exact_mod_cast hheld
  obtain ⟨hrep, -⟩ := parseInt_eq_fin hT
  rw [abs_of_pos ht] at hrep
  obtain ⟨hd, hδ0, hδ1⟩ := requiredDecimal_eq hp hp100
  have hmb := maxBunks_ge_zero hrep ht hδ0
    (by nlinarith : roundMag (p / 100) * (held : ℚ) ≤ (held : ℚ))
  have hcur : toFixed2 ((((Num.fin (held : ℚ)).div (Num.fin (held : ℚ)))).mul (Num.fin 100))
      = Fixed.dec false 10000 := by
    rw [div_fin_fin ht.le ht, div_self ht.ne', pack_false, roundMag_one,
      if_neg (not_le.mpr one_lt_overflowThreshold), mul_fin_fin (by norm_num) (by norm_num),
      one_mul, pack_false, roundMag_hundred,
      if_neg (not_le.mpr hundred_lt_overflowThreshold)]
    exact toFixed2_hundred
  refine ⟨(((Num.fin (held : ℚ)).div (Num.fin (roundMag (p / 100)))).sub
      (Num.fin (held : ℚ))).floor,
    toFixed2 (((Num.fin (held : ℚ)).div ((Num.fin (held : ℚ)).add
      (((Num.fin (held : ℚ)).div (Num.fin (roundMag (p / 100)))).sub
        (Num.fin (held : ℚ))).floor)).mul (Num.fin 100)), ?_, hmb⟩
  unfold calculateAttendance calculateAttendanceNum
  rw [hT, hA]
  simp only [Num.isNaN, Num.gt, Num.lt, Num.val, lt_irrefl, decide_False, Bool.or_self,
    Bool.false_eq_true, if_false]
  rw [hd]
  simp only [Num.ge]
  rw [if_pos hmb, hcur]

theorem C8_full_attendance_witness :
    ∃ maxBunks after,
      calculateAttendance "5" "5" (Num.fin 75) =
        some (Result.safe maxBunks (Fixed.dec false 10000) after
          (Num.fin ((5 : ℤ) : ℚ)) (Num.fin ((5 : ℤ) : ℚ)) (Num.fin 75)) ∧
      maxBunks.ge (Num.fin 0) = true :=
  C8_full_attendance "5" "5" 5 75 (by decide!) (by decide!) (by decide) (by norm_num)
    (by norm_num)

/-! ## Monotonicity of the operations used by `calculateAttendance` -/

theorem le_trans_num {x y z : Num} (h1 : x.le y = true) (h2 : y.le z = true) :
    x.le z = true := by
  cases x <;> cases y <;> cases z <;> simp [Num.le, Num.val] at h1 h2 ⊢ <;>
    first
    | assumption
    | linarith
    | aesop

theorem div_fin_ne_nan {n d : ℚ} (hn : 0 ≤ n) (hd : 0 ≤ d) (h : ¬ (n = 0 ∧ d = 0)) :
    (Num.fin n).div (Num.fin d) ≠ Num.nan := by
  rcases hd.lt_or_eq with hpos | h0
  · rw [div_fin_fin hn hpos]; exact pack_ne_nan _ _
  · subst h0
    have : 0 < n := lt_of_le_of_ne hn (fun e => h ⟨e.symm, rfl⟩)
    rw [div_fin_zero this]; simp

theorem div_fin_mono {n1 n2 d1 d2 : ℚ} (hn1 : 0 ≤ n1) (hn : n1 ≤ n2) (hd2 : 0 ≤ d2)
    (hd : d2 ≤ d1) (h1 : ¬ (n1 = 0 ∧ d1 = 0)) (h2 : ¬ (n2 = 0 ∧ d2 = 0)) :
    ((Num.fin n1).div (Num.fin d1)).le ((Num.fin n2).div (Num.fin d2)) = true := by
  have hn2 : 0 ≤ n2 := le_trans hn1 hn
  have hd1 : 0 ≤ d1 := le_trans hd2 hd
  rcases hd2.lt_or_eq with hpos | h0
  · have hpos1 : 0 < d1 := lt_of_lt_of_le hpos hd
    rw [div_fin_fin hn1 hpos1, div_fin_fin hn2 hpos]
    exact pack_false_mono (by positivity) (div_le_div₀ hn2 hn hpos hd)
  · subst h0
    have : 0 < n2 := lt_of_le_of_ne hn2 (fun e => h2 ⟨e.symm, rfl⟩)
    rw [div_fin_zero this]
    exact le_inf_false (div_fin_ne_nan hn1 hd1 h1)

theorem sub_fin_mono {x y : Num} {t : ℚ} (ht : t ≠ 0) (h : x.le y = true) :
    (x.sub (Num.fin t)).le (y.sub (Num.fin t)) = true := by
  have hneg : (Num.fin t).neg = Num.fin (-t) := by simp [Num.neg, ht]
  unfold Num.sub
  rw [hneg]
  cases x with
  | nan => simp [Num.le] at h
  | inf a =>
    cases y with
    | nan => simp [Num.le] at h
    | inf b => simpa [Num.add] using h
    | nzero =>
      have ha : a = true := by simpa [Num.le] using h
      subst ha
      simp only [Num.add]
      exact inf_true_le (ofRat_ne_nan _)
    | fin q =>
      have ha : a = true := by simpa [Num.le] using h
      subst ha
      simp only [Num.add]
      exact inf_true_le (ofRat_ne_nan _)
  | nzero =>
    cases y with
    | nan => simp [Num.le] at h
    | inf b =>
      have hb : b = false := by simpa [Num.le] using h
      subst hb
      simp only [Num.add]
      exact le_inf_false (ofRat_ne_nan _)
    | nzero => simp only [Num.add]; exact le_self (ofRat_ne_nan _)
    | fin q =>
      simp only [Num.le, Num.val, decide_eq_true_eq] at h
      simp only [Num.add, Num.val]
      exact ofRat_mono (by linarith)
  | fin p =>
    cases y with
    | nan => simp [Num.le] at h
    | inf b =>
      have hb : b = false := by simpa [Num.le] using h
      subst hb
      simp only [Num.add]
      exact le_inf_false (ofRat_ne_nan _)
    | nzero =>
      simp only [Num.le, Num.val, decide_eq_true_eq] at h
      simp only [Num.add, Num.val]
      exact ofRat_mono (by linarith)
    | fin q =>
      simp only [Num.le, Num.val, decide_eq_true_eq] at h
      simp only [Num.add, Num.val]
      exact ofRat_mono (by linarith)

theorem grid_gap (L : ℕ) {N : ℕ} {k : ℤ} (hk : -(L : ℤ) ≤ k)
    (h : (N : ℚ) * (2 : ℚ) ^ k < 1) :
    (2 : ℚ) ^ (-(L : ℤ)) ≤ 1 - (N : ℚ) * (2 : ℚ) ^ k := by
  obtain ⟨j, hj⟩ : ∃ j : ℕ, (j : ℤ) = k + L := ⟨(k + L).toNat, by
    rw [Int.toNat_of_nonneg]; omega⟩
  have two_ne : (2 : ℚ) ≠ 0 := by norm_num
  have hpos : (0 : ℚ) < ((2 ^ L : ℕ) : ℚ) := by positivity
  have e1 : (2 : ℚ) ^ k = ((2 ^ j : ℕ) : ℚ) / ((2 ^ L : ℕ) : ℚ) := by
    rw [eq_div_iff hpos.ne']
    push_cast
    rw [← zpow_natCast, ← zpow_natCast, ← zpow_add₀ two_ne]
    congr 1; omega
  have e2 : (2 : ℚ) ^ (-(L : ℤ)) = 1 / ((2 ^ L : ℕ) : ℚ) := by
    rw [zpow_neg, one_div, zpow_natCast]; push_cast; rfl
  generalize (2 ^ L : ℕ) = P at hpos e1 e2
  generalize (2 ^ j : ℕ) = J at e1
  rw [e1] at h ⊢
  rw [e2]
  have h' : ((N * J : ℕ) : ℚ) < (P : ℚ) := by
    have := (div_lt_one hpos).mp (by rw [← mul_div_assoc] at h; exact h)
    push_cast; exact this
  have h'' : N * J + 1 ≤ P := by exact_mod_cast h'
  have h3 : ((N * J + 1 : ℕ) : ℚ) ≤ (P : ℚ) := by exact_mod_cast h''
  push_cast at h3
  rw [← mul_div_assoc, le_sub_iff_add_le, ← add_div, div_le_one hpos]
  linarith

/-- A binary64 value below 1 stays at least `2 ^ (-1074)` away from 1. -/
theorem grid_lt_one {N : ℕ} {k : ℤ} (hk : -1074 ≤ k) (h : (N : ℚ) * (2 : ℚ) ^ k < 1) :
    (2 : ℚ) ^ (-1074 : ℤ) ≤ 1 - (N : ℚ) * (2 : ℚ) ^ k :=
  grid_gap 1074 hk h

theorem roundMag_min_subnormal : roundMag ((2 : ℚ) ^ (-1074 : ℤ)) = (2 : ℚ) ^ (-1074 : ℤ) := by
  have := roundMag_grid 1 (-1074) (by norm_num) le_rfl
  simpa using this

theorem roundMag_one_sub_ne_zero {y : ℚ} (hy : 0 ≤ y) (h : roundMag y < 1) :
    roundMag (1 - roundMag y) ≠ 0 := by
  obtain ⟨N, k, -, hk, e⟩ := roundMag_eq_grid hy
  rw [e] at h ⊢
  have h1 := grid_lt_one hk h
  have h2 := roundMag_mono (by positivity) h1
  rw [roundMag_min_subnormal] at h2
  have : (0 : ℚ) < (2 : ℚ) ^ (-1074 : ℤ) := by positivity
  linarith

/-! ## The two branches of `calculateAttendance` -/

theorem calculateAttendanceNum_fin (t a : ℚ) (P : Num) (hle : a ≤ t) :
    calculateAttendanceNum (Num.fin t) (Num.fin a) P =
      if (maxBunksValue (Num.fin t) (Num.fin a) P).ge (Num.fin 0) then
        some (Result.safe (maxBunksValue (Num.fin t) (Num.fin a) P)
          (toFixed2 (((Num.fin a).div (Num.fin t)).mul (Num.fin 100)))
          (toFixed2 (((Num.fin a).div ((Num.fin t).add
            (maxBunksValue (Num.fin t) (Num.fin a) P))).mul (Num.fin 100)))
          (Num.fin t) (Num.fin a) P)
      else
        some (Result.low (classesNeededValue (Num.fin t) (Num.fin a) P)
          (toFixed2 (((Num.fin a).div (Num.fin t)).mul (Num.fin 100)))
          (toFixed2 ((((Num.fin a).add (classesNeededValue (Num.fin t) (Num.fin a) P)).div
            ((Num.fin t).add (classesNeededValue (Num.fin t) (Num.fin a) P))).mul (Num.fin 100)))
          (Num.fin t) (Num.fin a) P) := by
  have hlt : ¬ t < a := not_lt.mpr hle
  unfold calculateAttendanceNum maxBunksValue classesNeededValue
  simp only [Num.isNaN, Num.gt, Num.lt, Num.val, hlt, decide_False, Bool.or_self,
    Bool.false_eq_true, if_false]

theorem calculateAttendance_low {T A : String} {t a : ℚ} {P : Num}
    (hT : parseInt T = Num.fin t) (hA : parseInt A = Num.fin a) (hle : a ≤ t)
    {c : Num} {cur aft : Fixed} {x y z : Num}
    (h : calculateAttendance T A P = some (Result.low c cur aft x y z)) :
    (maxBunksValue (Num.fin t) (Num.fin a) P).ge (Num.fin 0) = false ∧
      c = classesNeededValue (Num.fin t) (Num.fin a) P := by
  unfold calculateAttendance at h
  rw [hT, hA, calculateAttendanceNum_fin t a P hle] at h
  split_ifs at h with hg
  · simp at h
  · simp only [Option.some.injEq, Result.low.injEq] at h
    exact ⟨by simpa using hg, h.1.symm⟩

theorem calculateAttendance_of_not_ge {T A : String} {t a : ℚ} {P : Num}
    (hT : parseInt T = Num.fin t) (hA : parseInt A = Num.fin a) (hle : a ≤ t)
    (hg : (maxBunksValue (Num.fin t) (Num.fin a) P).ge (Num.fin 0) = false) :
    ∃ cur aft, calculateAttendance T A P =
      some (Result.low (classesNeededValue (Num.fin t) (Num.fin a) P) cur aft
        (Num.fin t) (Num.fin a) P) := by
  unfold calculateAttendance
  rw [hT, hA, calculateAttendanceNum_fin t a P hle, hg]
  exact ⟨_, _, rfl⟩

/-- In the low branch either nothing was attended and the required fraction rounds to
zero, or the attended count is below `requiredDecimal * T`. -/
theorem low_facts {t a δ : ℚ} (ht : roundMag t = t) (htpos : 0 < t) (ha : 0 ≤ a)
    (hδ : 0 ≤ δ)
    (h : (Num.fin 0).le ((((Num.fin a).div (Num.fin δ)).sub (Num.fin t)).floor) = false) :
    (a = 0 ∧ δ = 0) ∨ (0 < δ ∧ a < δ * t) := by
  rcases ha.lt_or_eq with hapos | ha0
  · rcases lt_or_le a (δ * t) with hlt | hge
    · right
      refine ⟨?_, hlt⟩
      rcases hδ.lt_or_eq with hp | h0
      · exact hp
      · subst h0; linarith
    · rw [maxBunks_ge_zero ht hapos hδ hge] at h
      simp at h
  · rcases hδ.lt_or_eq with hp | h0
    · right; exact ⟨hp, by rw [← ha0]; positivity⟩
    · left; exact ⟨ha0.symm, h0.symm⟩

theorem maxBunksValue_fin (t a : ℚ) {p : ℚ} (hp : 0 < p) (hp100 : p ≤ 100) :
    maxBunksValue (Num.fin t) (Num.fin a) (Num.fin p) =
      (((Num.fin a).div (Num.fin (roundMag (p / 100)))).sub (Num.fin t)).floor := by
  unfold maxBunksValue
  rw [(requiredDecimal_eq hp hp100).1]

theorem classesNeededValue_fin {t a : ℚ} {p : ℚ} (hp : 0 < p) (hp100 : p ≤ 100)
    (ht : roundMag t = t) (htovf : t < overflowThreshold) (ht0 : 0 ≤ t)
    (ham : a ≤ roundMag (roundMag (p / 100) * t)) (ha : 0 ≤ a) :
    classesNeededValue (Num.fin t) (Num.fin a) (Num.fin p) =
      ((Num.fin (roundMag (roundMag (roundMag (p / 100) * t) - a))).div
        (Num.fin (roundMag (1 - roundMag (p / 100))))).ceil := by
  obtain ⟨hd, hδ0, hδ1⟩ := requiredDecimal_eq hp hp100
  have hm : roundMag (roundMag (p / 100) * t) ≤ t := by
    have := roundMag_mono (mul_nonneg hδ0 ht0)
      (by nlinarith : roundMag (p / 100) * t ≤ t)
    rwa [ht] at this
  have hm0 : 0 ≤ roundMag (roundMag (p / 100) * t) := roundMag_nonneg (mul_nonneg hδ0 ht0)
  have hn : roundMag (roundMag (roundMag (p / 100) * t) - a) ≤ t := by
    have := roundMag_mono (by linarith : 0 ≤ roundMag (roundMag (p / 100) * t) - a)
      (by linarith : roundMag (roundMag (p / 100) * t) - a ≤ t)
    rwa [ht] at this
  have hd1 : roundMag (1 - roundMag (p / 100)) ≤ 1 := by
    have := roundMag_mono (by linarith : 0 ≤ 1 - roundMag (p / 100))
      (by linarith : 1 - roundMag (p / 100) ≤ 1)
    rwa [roundMag_one] at this
  unfold classesNeededValue
  rw [hd, mul_fin_fin hδ0 ht0, pack_false, if_neg (not_le.mpr (lt_of_le_of_lt hm htovf)),
    sub_fin_fin, ofRat_nonneg (by linarith), pack_false,
    if_neg (not_le.mpr (lt_of_le_of_lt hn htovf)),
    sub_fin_fin, ofRat_nonneg (by linarith), pack_false,
    if_neg (not_le.mpr (lt_of_le_of_lt hd1 one_lt_overflowThreshold))]

theorem maxBunks_zero_attended {t δ : ℚ} (ht : roundMag t = t) (htovf : t < overflowThreshold)
    (htpos : 0 < t) (hδ : 0 ≤ δ) :
    (Num.fin 0).le ((((Num.fin 0).div (Num.fin δ)).sub (Num.fin t)).floor) = false := by
  rcases hδ.lt_or_eq with hp | h0
  · rw [div_fin_fin le_rfl hp, zero_div, pack_false, roundMag_zero,
      if_neg (not_le.mpr overflowThreshold_pos), sub_fin_fin, zero_sub,
      ofRat_neg (by linarith), neg_neg, pack_true, ht, if_neg (not_le.mpr htovf),
      if_neg htpos.ne']
    simp only [Num.floor, Num.le, Num.val, decide_eq_false_iff_not, not_le]
    have : ⌊-t⌋ < 0 := by
      rw [Int.floor_lt]; push_cast; linarith
    exact_mod_cast this
  · subst h0
    simp [Num.div, Num.isZero, Num.sub, Num.add, Num.floor, Num.le]

theorem low_state {held attended : ℤ} {p : ℚ}
    (ht : roundMag (held : ℚ) = held) (ha : roundMag (attended : ℚ) = attended)
    (hheld : 0 < held) (ha0 : 0 ≤ attended) (hp : 0 < p) (hp100 : p ≤ 100)
    (h : (Num.fin 0).le ((((Num.fin (attended : ℚ)).div (Num.fin (roundMag (p / 100)))).sub
      (Num.fin (held : ℚ))).floor) = false) :
    (attended : ℚ) ≤ roundMag (roundMag (p / 100) * held) ∧
      ¬ (roundMag (roundMag (roundMag (p / 100) * held) - attended) = 0 ∧
          roundMag (1 - roundMag (p / 100)) = 0) := by
  have htq : (0 : ℚ) < (held : ℚ) := by exact_mod_cast hheld
  have haq : (0 : ℚ) ≤ (attended : ℚ) := by exact_mod_cast ha0
  obtain ⟨-, hδ0, hδ1⟩ := requiredDecimal_eq hp hp100
  have hy : (0 : ℚ) ≤ p / 100 := by positivity
  rcases low_facts ht htq haq hδ0 h with ⟨h1, h2⟩ | ⟨h1, h2⟩
  · refine ⟨?_, ?_⟩
    · rw [h1]; exact roundMag_nonneg (mul_nonneg hδ0 htq.le)
    · rintro ⟨-, hd⟩
      rw [h2] at hd
      simp [roundMag_one] at hd
  · have hle : (attended : ℚ) ≤ roundMag (roundMag (p / 100) * held) := by
      have := roundMag_mono haq h2.le
      rwa [ha] at this
    refine ⟨hle, ?_⟩
    rintro ⟨hn, hd⟩
    have hδ : roundMag (p / 100) = 1 := by
      by_contra hne
      exact roundMag_one_sub_ne_zero hy (lt_of_le_of_ne hδ1 hne) hd
    rw [hδ, one_mul] at h2 hn
    rw [ht] at hn
    have hlt : attended < held := by exact_mod_cast h2
    have h1le : (1 : ℚ) ≤ (held : ℚ) - (attended : ℚ) := by
      have : (1 : ℤ) ≤ held - attended := by omega
      exact_mod_cast this
    have := roundMag_mono (by norm_num) h1le
    rw [roundMag_one, hn] at this
    linarith

/-- C7 (counterexample): with 10 held, 0 attended and the thresholds `2 ^ (-1074)` and
`75`, the value computed for `maxBunks` at the smaller threshold is `NaN`, so the one
computed at `75` is not `<=` it. -/
theorem C7_maxBunks_nan_counterexample :
    parseInt "10" = Num.fin ((10 : ℤ) : ℚ) ∧ parseInt "0" = Num.fin ((0 : ℤ) : ℚ) ∧
    (0 : ℚ) < (2 : ℚ) ^ (-1074 : ℤ) ∧ (2 : ℚ) ^ (-1074 : ℤ) ≤ 75 ∧ (75 : ℚ) < 100 ∧
    maxBunksValue (parseInt "10") (parseInt "0") (Num.fin ((2 : ℚ) ^ (-1074 : ℤ))) = Num.nan ∧
    (maxBunksValue (parseInt "10") (parseInt "0") (Num.fin 75)).le
      (maxBunksValue (parseInt "10") (parseInt "0") (Num.fin ((2 : ℚ) ^ (-1074 : ℤ))))
      = false := by
  decide!

/-- C7 (amended): for held `> 0`, `0 ≤ attended ≤ held` and thresholds
`0 < p1 ≤ p2 < 100`: (1) when something was attended or `p1 / 100` does not round to
zero, the value computed for `maxBunks` at `p2` is `<=` the one at `p1`; (2) a result
that is `low` at `p1` is `low` at `p2`; (3) when both results are `low`,
`classesNeeded` at `p1` is `<=` `classesNeeded` at `p2`. -/
theorem C7_threshold_monotone (T A : String) (held attended : ℤ) (p1 p2 : ℚ)
    (hT : parseInt T = Num.fin (held : ℚ)) (hA : parseInt A = Num.fin (attended : ℚ))
    (hheld : 0 < held) (ha0 : 0 ≤ attended) (hah : attended ≤ held)
    (hp1 : 0 < p1) (h12 : p1 ≤ p2) (hp2 : p2 < 100) :
    ((0 < attended ∨ roundMag (p1 / 100) ≠ 0) →
      (maxBunksValue (parseInt T) (parseInt A) (Num.fin p2)).le
        (maxBunksValue (parseInt T) (parseInt A) (Num.fin p1)) = true) ∧
    (∀ c1 cur1 aft1 x1 y1 z1,
      calculateAttendance T A (Num.fin p1) = some (Result.low c1 cur1 aft1 x1 y1 z1) →
      ∃ c2 cur2 aft2, calculateAttendance T A (Num.fin p2) =
        some (Result.low c2 cur2 aft2 (Num.fin (held : ℚ)) (Num.fin (attended : ℚ))
          (Num.fin p2))) ∧
    (∀ c1 cur1 aft1 x1 y1 z1 c2 cur2 aft2 x2 y2 z2,
      calculateAttendance T A (Num.fin p1) = some (Result.low c1 cur1 aft1 x1 y1 z1) →
      calculateAttendance T A (Num.fin p2) = some (Result.low c2 cur2 aft2 x2 y2 z2) →
      c1.le c2 = true) := by
  have htq : (0 : ℚ) < (held : ℚ) := by exact_mod_cast hheld
  have haq : (0 : ℚ) ≤ (attended : ℚ) := by exact_mod_cast ha0
  have hle : (attended : ℚ) ≤ (held : ℚ) := by exact_mod_cast hah
  obtain ⟨ht, htovf⟩ := parseInt_eq_fin hT
  rw [abs_of_pos htq] at ht htovf
  obtain ⟨ha, -⟩ := parseInt_eq_fin hA
  rw [abs_of_nonneg haq] at ha
  have hp2pos : 0 < p2 := lt_of_lt_of_le hp1 h12
  have hp1le : p1 ≤ 100 := le_trans h12 hp2.le
  obtain ⟨-, hδ1, hδ1'⟩ := requiredDecimal_eq hp1 hp1le
  obtain ⟨-, hδ2, hδ2'⟩ := requiredDecimal_eq hp2pos hp2.le
  have hδ : roundMag (p1 / 100) ≤ roundMag (p2 / 100) :=
    roundMag_mono (by positivity) (div_le_div_of_nonneg_right h12 (by norm_num))
  -- (1) the values computed for `maxBunks`
  have part1 : (0 < attended ∨ roundMag (p1 / 100) ≠ 0) →
      (maxBunksValue (Num.fin (held : ℚ)) (Num.fin (attended : ℚ)) (Num.fin p2)).le
        (maxBunksValue (Num.fin (held : ℚ)) (Num.fin (attended : ℚ)) (Num.fin p1)) = true := by
    intro hside
    have hno : ¬ ((attended : ℚ) = 0 ∧ roundMag (p1 / 100) = 0) := by
      rintro ⟨e1, e2⟩
      rcases hside with h | h
      · have : (0 : ℚ) < (attended : ℚ) := by exact_mod_cast h
        linarith
      · exact h e2
    have hno2 : ¬ ((attended : ℚ) = 0 ∧ roundMag (p2 / 100) = 0) := by
      rintro ⟨e1, e2⟩
      exact hno ⟨e1, le_antisymm (e2 ▸ hδ) hδ1⟩
    rw [maxBunksValue_fin _ _ hp2pos hp2.le, maxBunksValue_fin _ _ hp1 hp1le]
    exact floor_mono (sub_fin_mono htq.ne' (div_fin_mono haq le_rfl hδ1 hδ hno2 hno))
  -- (2) low at `p1` gives low at `p2`
  have part2 : (maxBunksValue (Num.fin (held : ℚ)) (Num.fin (attended : ℚ)) (Num.fin p1)).ge
        (Num.fin 0) = false →
      (maxBunksValue (Num.fin (held : ℚ)) (Num.fin (attended : ℚ)) (Num.fin p2)).ge
        (Num.fin 0) = false := by
    intro hlow
    by_cases hside : 0 < attended ∨ roundMag (p1 / 100) ≠ 0
    · by_contra hcon
      have hge : (Num.fin 0).le
          (maxBunksValue (Num.fin (held : ℚ)) (Num.fin (attended : ℚ)) (Num.fin p2)) = true := by
        simpa [Num.ge] using hcon
      have := le_trans_num hge (part1 hside)
      simp only [Num.ge] at hlow
      rw [this] at hlow
      simp at hlow
    · push_neg at hside
      have hz : attended = 0 := by omega
      subst hz
      rw [maxBunksValue_fin _ _ hp2pos hp2.le]
      simp only [Num.ge, Int.cast_zero]
      exact maxBunks_zero_attended ht htovf htq hδ2
  refine ⟨?_, ?_, ?_⟩
  · rw [hT, hA]; exact part1
  · intro c1 cur1 aft1 x1 y1 z1 h1
    obtain ⟨hlow, -⟩ := calculateAttendance_low hT hA hle h1
    obtain ⟨cur, aft, h⟩ := calculateAttendance_of_not_ge hT hA hle (part2 hlow)
    exact ⟨_, _, _, h⟩
  · intro c1 cur1 aft1 x1 y1 z1 c2 cur2 aft2 x2 y2 z2 h1 h2
    obtain ⟨hlow1, e1⟩ := calculateAttendance_low hT hA hle h1
    obtain ⟨hlow2, e2⟩ := calculateAttendance_low hT hA hle h2
    rw [maxBunksValue_fin _ _ hp1 hp1le] at hlow1
    rw [maxBunksValue_fin _ _ hp2pos hp2.le] at hlow2
    simp only [Num.ge] at hlow1 hlow2
    obtain ⟨ham1, hnn1⟩ := low_state ht ha hheld ha0 hp1 hp1le hlow1
    obtain ⟨ham2, hnn2⟩ := low_state ht ha hheld ha0 hp2pos hp2.le hlow2
    rw [e1, e2, classesNeededValue_fin hp1 hp1le ht htovf htq.le ham1 haq,
      classesNeededValue_fin hp2pos hp2.le ht htovf htq.le ham2 haq]
    have hm : roundMag (roundMag (p1 / 100) * held) ≤ roundMag (roundMag (p2 / 100) * held) :=
      roundMag_mono (mul_nonneg hδ1 htq.le) (mul_le_mul_of_nonneg_right hδ htq.le)
    apply ceil_mono
    apply div_fin_mono
    · exact roundMag_nonneg (by linarith)
    · exact roundMag_mono (by linarith) (by linarith)
    · exact roundMag_nonneg (by linarith)
    · exact roundMag_mono (by linarith) (by linarith)
    · exact hnn1
    · exact hnn2

theorem C7_threshold_monotone_witness :
    ((0 < (5 : ℤ) ∨ roundMag ((60 : ℚ) / 100) ≠ 0) →
      (maxBunksValue (parseInt "10") (parseInt "5") (Num.fin 75)).le
        (maxBunksValue (parseInt "10") (parseInt "5") (Num.fin 60)) = true) ∧
    (∀ c1 cur1 aft1 x1 y1 z1,
      calculateAttendance "10" "5" (Num.fin 60) = some (Result.low c1 cur1 aft1 x1 y1 z1) →
      ∃ c2 cur2 aft2, calculateAttendance "10" "5" (Num.fin 75) =
        some (Result.low c2 cur2 aft2 (Num.fin ((10 : ℤ) : ℚ)) (Num.fin ((5 : ℤ) : ℚ))
          (Num.fin 75))) ∧
    (∀ c1 cur1 aft1 x1 y1 z1 c2 cur2 aft2 x2 y2 z2,
      calculateAttendance "10" "5" (Num.fin 60) = some (Result.low c1 cur1 aft1 x1 y1 z1) →
      calculateAttendance "10" "5" (Num.fin 75) = some (Result.low c2 cur2 aft2 x2 y2 z2) →
      c1.le c2 = true) :=
  C7_threshold_monotone "10" "5" 10 5 60 75 (by decide!) (by decide!) (by decide) (by decide)
    (by decide) (by norm_num) (by norm_num) (by norm_num)

/-! ## Rounding error bounds -/

theorem roundMag_error_of_lt {x : ℚ} (hx : 0 ≤ x) {k : ℤ} (hk : -1022 ≤ k)
    (h : x < (2 : ℚ) ^ (k + 1)) : |roundMag x - x| ≤ (2 : ℚ) ^ (k - 53) := by
  rcases hx.lt_or_eq with hpos | h0
  · have he : expo x ≤ k := by
      unfold expo
      exact max_le (ilog2_le_of_lt_zpow hpos h) hk
    have h1 := roundMag_error x
    have h2 : ulp x / 2 = (2 : ℚ) ^ (expo x - 53) := by
      unfold ulp
      rw [show expo x - 52 = (expo x - 53) + 1 by ring, zpow_add_one₀ (by norm_num)]
      ring
    rw [h2] at h1
    exact le_trans h1 (zpow_le_zpow_right₀ (by norm_num) (by omega))
  · subst h0
    rw [roundMag_zero]
    simp
    positivity

theorem roundMag_error_le_one {x : ℚ} (hx : 0 ≤ x) (h : x ≤ 1) :
    |roundMag x - x| ≤ 1 / 2 ^ 53 := by
  have := roundMag_error_of_lt hx (k := 0) (by norm_num) (by norm_num; linarith)
  have e : (2 : ℚ) ^ ((0 : ℤ) - 53) = 1 / 2 ^ 53 := by
    rw [show ((0 : ℤ) - 53) = -(53 : ℕ) by norm_num, zpow_neg, zpow_natCast, one_div]
  rwa [e] at this

theorem roundMag_error_le_hundred {x : ℚ} (hx : 0 ≤ x) (h : x ≤ 100) :
    |roundMag x - x| ≤ 1 / 2 ^ 47 := by
  have := roundMag_error_of_lt hx (k := 6) (by norm_num) (by norm_num; linarith)
  have e : (2 : ℚ) ^ ((6 : ℤ) - 53) = 1 / 2 ^ 47 := by
    rw [show ((6 : ℤ) - 53) = -(47 : ℕ) by norm_num, zpow_neg, zpow_natCast, one_div]
  rwa [e] at this

theorem roundMag_rel_error {x : ℚ} (hx : 1 ≤ x) : |roundMag x - x| ≤ x * (1 / 2 ^ 53) := by
  have hpos : 0 < x := by linarith
  have h0 : (0 : ℤ) ≤ ilog2 x := le_ilog2_of_zpow_le hpos (by simpa using hx)
  have he : expo x = ilog2 x := by unfold expo; exact max_eq_left (by omega)
  have h1 := roundMag_error x
  have h2 : ulp x / 2 = (2 : ℚ) ^ (ilog2 x) * (1 / 2 ^ 53) := by
    unfold ulp
    rw [he, show ilog2 x - 52 = ilog2 x + (-(53 : ℕ) : ℤ) + 1 by push_cast; ring,
      zpow_add_one₀ (by norm_num), zpow_add₀ (by norm_num), zpow_neg, zpow_natCast]
    ring
  rw [h2] at h1
  exact le_trans h1 (mul_le_mul_of_nonneg_right (ilog2_spec hpos).1 (by positivity))

theorem roundMag_rel_error_int {z : ℤ} (hz : 0 ≤ z) :
    |roundMag (z : ℚ) - z| ≤ (z : ℚ) * (1 / 2 ^ 53) := by
  rcases hz.lt_or_eq with hpos | h0
  · exact roundMag_rel_error (by exact_mod_cast (by omega : (1 : ℤ) ≤ z))
  · subst h0; simp [roundMag_zero]

/-! ## The displayed percentages -/

theorem toFixed2_fin_of_le {v : ℚ} (h0 : 0 ≤ v) (h : v ≤ 100) :
    toFixed2 (Num.fin v) = Fixed.dec false ⌊v * 100 + 1 / 2⌋.toNat := by
  have h1 : ¬ ((10 : ℚ) ^ 21 ≤ |v|) := by
    rw [abs_of_nonneg h0]; intro hc; norm_num at hc; linarith
  have h2 : ¬ v < 0 := not_lt.mpr h0
  simp only [toFixed2]
  rw [if_neg h1, abs_of_nonneg h0]
  simp [h2]

theorem percent_of_ratio {q x : ℚ} (hq0 : 0 ≤ q) (hq1 : q ≤ 1)
    (hx : |100 * q - x| ≤ 1 / 2 ^ 41) :
    IsRoundedPercent (toFixed2 ((Num.pack false q).mul (Num.fin 100)))
      (roundMag (roundMag q * 100)) x := by
  have hr0 : 0 ≤ roundMag q := roundMag_nonneg hq0
  have hr1 : roundMag q ≤ 1 := by
    have := roundMag_mono hq0 hq1
    rwa [roundMag_one] at this
  have hv0 : 0 ≤ roundMag (roundMag q * 100) := roundMag_nonneg (by positivity)
  have hv1 : roundMag (roundMag q * 100) ≤ 100 := by
    have := roundMag_mono (by positivity : 0 ≤ roundMag q * 100)
      (by linarith : roundMag q * 100 ≤ 100)
    rwa [roundMag_hundred] at this
  have e1 := roundMag_error_le_one hq0 hq1
  have e2 := roundMag_error_le_hundred (by positivity : 0 ≤ roundMag q * 100)
    (by linarith : roundMag q * 100 ≤ 100)
  rw [pack_false, if_neg (not_le.mpr (lt_of_le_of_lt hr1 one_lt_overflowThreshold)),
    mul_fin_fin hr0 (by norm_num), pack_false,
    if_neg (not_le.mpr (lt_of_le_of_lt hv1 hundred_lt_overflowThreshold)),
    toFixed2_fin_of_le hv0 hv1]
  refine ⟨hv0, ?_, rfl⟩
  rw [abs_le] at e1 e2 hx ⊢
  constructor <;> norm_num at e1 e2 hx ⊢ <;> linarith

theorem toFixed2_zero : toFixed2 (Num.fin 0) = Fixed.dec false 0 := by
  rw [toFixed2_fin_of_le le_rfl (by norm_num)]
  norm_num

theorem ofRat_eq_fin {x s : ℚ} (hx : 0 ≤ x) (h : Num.ofRat x = Num.fin s) :
    roundMag x < overflowThreshold ∧ s = roundMag x := by
  rw [ofRat_nonneg hx, pack_false] at h
  split_ifs at h with h1
  simp only [Num.fin.injEq] at h
  exact ⟨not_le.mp h1, h.symm⟩

theorem floor_eq_fin {x : Num} {m : ℚ} (h : x.floor = Num.fin m) : ∃ z : ℤ, m = z := by
  cases x with
  | nan => simp [Num.floor] at h
  | inf b => simp [Num.floor] at h
  | nzero => simp [Num.floor] at h
  | fin q =>
    simp only [Num.floor, Num.fin.injEq] at h
    exact ⟨⌊q⌋, h.symm⟩

theorem ceil_eq_fin {x : Num} {c : ℚ} (h : x.ceil = Num.fin c) : ∃ z : ℤ, c = z := by
  cases x with
  | nan => simp [Num.ceil] at h
  | inf b => simp [Num.ceil] at h
  | nzero => simp [Num.ceil] at h
  | fin q =>
    simp only [Num.ceil] at h
    split_ifs at h
    simp only [Num.fin.injEq] at h
    exact ⟨⌈q⌉, h.symm⟩

theorem div_fin_ge_zero {n d : ℚ} (hn : 0 ≤ n) (hd : 0 ≤ d) (h : ¬ (n = 0 ∧ d = 0)) :
    (Num.fin 0).le ((Num.fin n).div (Num.fin d)) = true := by
  rcases hd.lt_or_eq with hpos | h0
  · rw [div_fin_fin hn hpos]
    exact pack_false_ge_zero (by positivity)
  · subst h0
    have : 0 < n := lt_of_le_of_ne hn (fun e => h ⟨e.symm, rfl⟩)
    rw [div_fin_zero this]; simp [Num.le]

theorem ceil_ge_zero {x : Num} (h : (Num.fin 0).le x = true) :
    (Num.fin 0).le x.ceil = true := by
  have := ceil_mono h
  simpa [Num.ceil] using this

/-- The percentage computed from two integer counts `0 ≤ X ≤ Y`, `1 ≤ Y`, each first
rounded to binary64, is within `2 ^ (-40)` of the exact `X / Y * 100` and is displayed
as the hundredth nearest to it. -/
theorem ratio_percent {X Y : ℤ} (hX : 0 ≤ X) (hXY : X ≤ Y) (hY : 1 ≤ Y)
    (hfin : roundMag (Y : ℚ) < overflowThreshold) :
    IsRoundedPercent
      (toFixed2 (((Num.ofRat (X : ℚ)).div (Num.ofRat (Y : ℚ))).mul (Num.fin 100)))
      (binary64Percent (roundMag (X : ℚ)) (roundMag (Y : ℚ)))
      ((X : ℚ) / (Y : ℚ) * 100) := by
  have hXq : (0 : ℚ) ≤ (X : ℚ) := by exact_mod_cast hX
  have hXYq : (X : ℚ) ≤ (Y : ℚ) := by exact_mod_cast hXY
  have hYq : (1 : ℚ) ≤ (Y : ℚ) := by exact_mod_cast hY
  have hYpos : (0 : ℚ) < (Y : ℚ) := by linarith
  have eX := roundMag_rel_error_int hX
  have eY := roundMag_rel_error hYq
  have hsX0 : 0 ≤ roundMag (X : ℚ) := roundMag_nonneg hXq
  have hsXY : roundMag (X : ℚ) ≤ roundMag (Y : ℚ) := roundMag_mono hXq hXYq
  have hsY1 : 1 ≤ roundMag (Y : ℚ) := by
    have := roundMag_mono (by norm_num) hYq
    rwa [roundMag_one] at this
  have hsYpos : 0 < roundMag (Y : ℚ) := by linarith
  rw [ofRat_nonneg hXq, ofRat_nonneg hYpos.le, pack_false,
    if_neg (not_le.mpr (lt_of_le_of_lt hsXY hfin)), pack_false, if_neg (not_le.mpr hfin),
    div_fin_fin hsX0 hsYpos]
  unfold binary64Percent
  apply percent_of_ratio (div_nonneg hsX0 hsYpos.le) ((div_le_one hsYpos).mpr hsXY)
  generalize roundMag (X : ℚ) = sX at *
  generalize roundMag (Y : ℚ) = sY at *
  generalize (X : ℚ) = x at *
  generalize (Y : ℚ) = y at *
  have hprod : 0 < sY * y := mul_pos hsYpos hYpos
  have e : 100 * (sX / sY) - x / y * 100 = 100 * ((sX * y - x * sY) / (sY * y)) := by
    field_simp; ring
  rw [e, abs_mul, abs_div, abs_of_pos hprod, abs_of_pos (by norm_num : (0 : ℚ) < 100)]
  rw [abs_le] at eX eY
  have hnum : |sX * y - x * sY| ≤ 4 * (1 / 2 ^ 53) * (sY * y) := by
    have hxy : 0 ≤ x * y := mul_nonneg hXq hYpos.le
    have hy2 : y ≤ 2 * sY := by norm_num at eY; linarith
    rw [abs_le]
    constructor
    · have h1 := mul_le_mul_of_nonneg_right eX.1 hYpos.le
      have h2 := mul_le_mul_of_nonneg_left eY.2 hXq
      have h3 : x * y ≤ 2 * (sY * y) := by nlinarith
      norm_num at h1 h2 ⊢
      nlinarith
    · have h1 := mul_le_mul_of_nonneg_right eX.2 hYpos.le
      have h2 := mul_le_mul_of_nonneg_left eY.1 hXq
      have h3 : x * y ≤ 2 * (sY * y) := by nlinarith
      norm_num at h1 h2 ⊢
      nlinarith
  have hq : |sX * y - x * sY| / (sY * y) ≤ 4 * (1 / 2 ^ 53) := by
    rw [div_le_iff₀ hprod]; exact hnum
  norm_num at hq ⊢
  linarith

theorem ofRat_of_roundMag_eq {x : ℚ} (h0 : 0 ≤ x) (hx : roundMag x = x)
    (hfin : x < overflowThreshold) : Num.ofRat x = Num.fin x := by
  rw [ofRat_nonneg h0, pack_false, hx, if_neg (not_le.mpr hfin)]

/-- C9 (counterexample): with 160 held and 23 attended the exact percentage is the tie
`14.375`, which rounds half away from zero to `14.38`; the result shows `14.37`. -/
theorem C9_tie_counterexample :
    calculateAttendance "160" "23" (Num.fin 75) =
      some (Result.low (Num.fin 388) (Fixed.dec false 1437) (Fixed.dec false 7500)
        (Num.fin 160) (Num.fin 23) (Num.fin 75)) ∧
    (23 : ℚ) / 160 * 100 = 14375 / 1000 ∧
    ⌊(23 : ℚ) / 160 * 100 * 100 + 1 / 2⌋ = 1438 := by
  refine ⟨by decide!, by norm_num, ?_⟩
  rw [Int.floor_eq_iff]; norm_num

/-- C9 (amended): for held `> 0`, `0 ≤ attended ≤ held` and `0 < p < 100` the result is
`safe` or `low`.  Its `currentPercent` is the binary64 value computed for
`attended / held * 100`, rounded to the nearest hundredth (the larger one on a tie), and
that computed value is within `2 ^ (-40)` of the exact one.  The projected percentage
has the same property for `attended / (held + maxBunks) * 100` on `safe` and for
`(attended + classesNeeded) / (held + classesNeeded) * 100` on `low`, whenever
`maxBunks` (or `classesNeeded`) and its sum `s` with held are finite numbers; with
`maxBunks = Infinity` the projected percentage is `0.00`. -/
theorem C9_percentages_rounded (T A : String) (held attended : ℤ) (p : ℚ)
    (hT : parseInt T = Num.fin (held : ℚ)) (hA : parseInt A = Num.fin (attended : ℚ))
    (hheld : 0 < held) (ha0 : 0 ≤ attended) (hah : attended ≤ held)
    (hp : 0 < p) (hp100 : p < 100) :
    ∃ r, calculateAttendance T A (Num.fin p) = some r ∧
      match r with
      | Result.error _ => False
      | Result.safe maxBunks cur aft _ _ _ =>
        IsRoundedPercent cur (binary64Percent (attended : ℚ) (held : ℚ))
          ((attended : ℚ) / (held : ℚ) * 100) ∧
        (maxBunks = Num.inf false → aft = Fixed.dec false 0) ∧
        (∀ m s, maxBunks = Num.fin m → (Num.fin (held : ℚ)).add maxBunks = Num.fin s →
          IsRoundedPercent aft (binary64Percent (attended : ℚ) s)
            ((attended : ℚ) / ((held : ℚ) + m) * 100))
      | Result.low classesNeeded cur aft _ _ _ =>
        IsRoundedPercent cur (binary64Percent (attended : ℚ) (held : ℚ))
          ((attended : ℚ) / (held : ℚ) * 100) ∧
        (∀ c s, classesNeeded = Num.fin c →
          (Num.fin (held : ℚ)).add classesNeeded = Num.fin s →
          ∃ s', (Num.fin (attended : ℚ)).add classesNeeded = Num.fin s' ∧
            IsRoundedPercent aft (binary64Percent s' s)
              (((attended : ℚ) + c) / ((held : ℚ) + c) * 100)) := by
  have htq : (0 : ℚ) < (held : ℚ) := by exact_mod_cast hheld
  have haq : (0 : ℚ) ≤ (attended : ℚ) := by exact_mod_cast ha0
  have hle : (attended : ℚ) ≤ (held : ℚ) := by exact_mod_cast hah
  obtain ⟨ht, htovf⟩ := parseInt_eq_fin hT
  rw [abs_of_pos htq] at ht htovf
  obtain ⟨ha, haovf⟩ := parseInt_eq_fin hA
  rw [abs_of_nonneg haq] at ha haovf
  have eT : Num.fin (held : ℚ) = Num.ofRat (held : ℚ) :=
    (ofRat_of_roundMag_eq htq.le ht htovf).symm
  have eA : Num.fin (attended : ℚ) = Num.ofRat (attended : ℚ) :=
    (ofRat_of_roundMag_eq haq ha haovf).symm
  have hcur : IsRoundedPercent
      (toFixed2 (((Num.fin (attended : ℚ)).div (Num.fin (held : ℚ))).mul (Num.fin 100)))
      (binary64Percent (attended : ℚ) (held : ℚ))
      ((attended : ℚ) / (held : ℚ) * 100) := by
    have key := ratio_percent ha0 hah (by omega) (by rw [ht]; exact htovf)
    rw [ha, ht, ← eA, ← eT] at key
    exact key
  unfold calculateAttendance
  rw [hT, hA, calculateAttendanceNum_fin _ _ _ hle]
  by_cases hge : (maxBunksValue (Num.fin (held : ℚ)) (Num.fin (attended : ℚ)) (Num.fin p)).ge
      (Num.fin 0) = true
  · rw [if_pos hge]
    refine ⟨_, rfl, hcur, ?_, ?_⟩
    · intro hM
      rw [hM, add_fin_inf, div_fin_inf haq, mul_fin_fin le_rfl (by norm_num), zero_mul,
        pack_false, roundMag_zero, if_neg (not_le.mpr overflowThreshold_pos)]
      exact toFixed2_zero
    · intro m s hM hadd
      rw [hM] at hadd hge ⊢
      obtain ⟨z, hz⟩ := floor_eq_fin (by unfold maxBunksValue at hM; exact hM)
      subst hz
      have hz0 : (0 : ℚ) ≤ (z : ℚ) := by simpa [Num.ge, Num.le, Num.val] using hge
      have hz0' : 0 ≤ z := by exact_mod_cast hz0
      rw [add_fin_fin] at hadd ⊢
      have e : (held : ℚ) + (z : ℚ) = ((held + z : ℤ) : ℚ) := by push_cast; rfl
      rw [e] at hadd ⊢
      obtain ⟨hfin, hs⟩ := ofRat_eq_fin (by exact_mod_cast (by omega : 0 ≤ held + z)) hadd
      have key := ratio_percent ha0 (by omega : attended ≤ held + z) (by omega) hfin
      rw [ha, ← hs, ← eA] at key
      exact key
  · have hlow : (maxBunksValue (Num.fin (held : ℚ)) (Num.fin (attended : ℚ)) (Num.fin p)).ge
        (Num.fin 0) = false := by simpa using hge
    rw [if_neg hge]
    refine ⟨_, rfl, hcur, ?_⟩
    intro c s hC hadd
    rw [maxBunksValue_fin _ _ hp hp100.le] at hlow
    simp only [Num.ge] at hlow
    obtain ⟨ham, hnn⟩ := low_state ht ha hheld ha0 hp hp100.le hlow
    have hform := classesNeededValue_fin hp hp100.le ht htovf htq.le ham haq
    have hδ0 := (requiredDecimal_eq hp hp100.le).2.1
    have hδ1 := (requiredDecimal_eq hp hp100.le).2.2
    have hC0 : (Num.fin 0).le (Num.fin c) = true := by
      rw [← hC, hform]
      exact ceil_ge_zero (div_fin_ge_zero (roundMag_nonneg (by linarith))
        (roundMag_nonneg (by linarith)) hnn)
    obtain ⟨z, hz⟩ := ceil_eq_fin (by rw [← hC, hform])
    subst hz
    have hz0 : (0 : ℚ) ≤ (z : ℚ) := by simpa [Num.le, Num.val] using hC0
    have hz0' : 0 ≤ z := by exact_mod_cast hz0
    rw [hC] at hadd ⊢
    rw [add_fin_fin] at hadd
    rw [add_fin_fin, add_fin_fin]
    have e1 : (held : ℚ) + (z : ℚ) = ((held + z : ℤ) : ℚ) := by push_cast; rfl
    have e2 : (attended : ℚ) + (z : ℚ) = ((attended + z : ℤ) : ℚ) := by push_cast; rfl
    rw [e1] at hadd ⊢
    rw [e2]
    obtain ⟨hfin, hs⟩ := ofRat_eq_fin (by exact_mod_cast (by omega : 0 ≤ held + z)) hadd
    have hXq : (0 : ℚ) ≤ ((attended + z : ℤ) : ℚ) := by exact_mod_cast (by omega : 0 ≤ attended + z)
    have hXY : ((attended + z : ℤ) : ℚ) ≤ ((held + z : ℤ) : ℚ) := by
      exact_mod_cast (by omega : attended + z ≤ held + z)
    have hfinX : roundMag ((attended + z : ℤ) : ℚ) < overflowThreshold :=
      lt_of_le_of_lt (roundMag_mono hXq hXY) hfin
    refine ⟨roundMag ((attended + z : ℤ) : ℚ), ?_, ?_⟩
    · rw [ofRat_nonneg hXq, pack_false, if_neg (not_le.mpr hfinX)]
    · have key := ratio_percent (by omega : 0 ≤ attended + z)
        (by omega : attended + z ≤ held + z) (by omega) hfin
      rw [← hs] at key
      exact key

theorem C9_percentages_rounded_witness :
    ∃ r, calculateAttendance "10" "9" (Num.fin 75) = some r ∧
      match r with
      | Result.error _ => False
      | Result.safe maxBunks cur aft _ _ _ =>
        IsRoundedPercent cur (binary64Percent ((9 : ℤ) : ℚ) ((10 : ℤ) : ℚ))
          (((9 : ℤ) : ℚ) / ((10 : ℤ) : ℚ) * 100) ∧
        (maxBunks = Num.inf false → aft = Fixed.dec false 0) ∧
        (∀ m s, maxBunks = Num.fin m → (Num.fin ((10 : ℤ) : ℚ)).add maxBunks = Num.fin s →
          IsRoundedPercent aft (binary64Percent ((9 : ℤ) : ℚ) s)
            (((9 : ℤ) : ℚ) / (((10 : ℤ) : ℚ) + m) * 100))
      | Result.low classesNeeded cur aft _ _ _ =>
        IsRoundedPercent cur (binary64Percent ((9 : ℤ) : ℚ) ((10 : ℤ) : ℚ))
          (((9 : ℤ) : ℚ) / ((10 : ℤ) : ℚ) * 100) ∧
        (∀ c s, classesNeeded = Num.fin c →
          (Num.fin ((10 : ℤ) : ℚ)).add classesNeeded = Num.fin s →
          ∃ s', (Num.fin ((9 : ℤ) : ℚ)).add classesNeeded = Num.fin s' ∧
            IsRoundedPercent aft (binary64Percent s' s)
              ((((9 : ℤ) : ℚ) + c) / (((10 : ℤ) : ℚ) + c) * 100)) :=
  C9_percentages_rounded "10" "9" 10 9 75 (by decide!) (by decide!) (by decide) (by decide)
    (by decide) (by norm_num) (by norm_num)

/-- C3: when both inputs parse to integers and `attended > held`, the result is the error
object with the message of the source, whatever the required percentage. -/
theorem C3_error_branch (T A : String) (held attended : ℤ) (p : Num)
    (hT : parseInt T = Num.fin (held : ℚ)) (hA : parseInt A = Num.fin (attended : ℚ))
    (h : held < attended) :
    calculateAttendance T A p =
      some (Result.error "Classes attended cannot be greater than classes held!") := by
  have hlt : ((held : ℚ) < (attended : ℚ)) := by exact_mod_cast h
  simp [calculateAttendance, calculateAttendanceNum, hT, hA, Num.isNaN, Num.gt, Num.lt,
    Num.val, hlt]

theorem C3_error_branch_witness :
    calculateAttendance "10" "11" (Num.fin 75) =
      some (Result.error "Classes attended cannot be greater than classes held!") :=
  C3_error_branch "10" "11" 10 11 (Num.fin 75) (by decide!) (by decide!) (by decide)

/-- C5: when `parseInt` yields `NaN` for the held or the attended input, the result is
`null`, whatever the required percentage. -/
theorem C5_unparseable_null (T A : String) (p : Num)
    (h : parseInt T = Num.nan ∨ parseInt A = Num.nan) :
    calculateAttendance T A p = none := by
  rcases h with h | h <;>
    simp [calculateAttendance, calculateAttendanceNum, h, Num.isNaN]

theorem C5_unparseable_null_witness :
    calculateAttendance "" "5" (Num.fin 75) = none :=
  C5_unparseable_null "" "5" (Num.fin 75) (Or.inl (by decide!))

/-- C1 (failing input): with 50 held, 33 attended and 55 required the result is `safe`
with `maxBunks = 9`, although 10 further absences still keep `33 / 60 ≥ 55 / 100`. -/
theorem C1_maxBunks_not_greatest :
    calculateAttendance "50" "33" (Num.fin 55) =
      some (Result.safe (Num.fin 9) (Fixed.dec false 6600) (Fixed.dec false 5593)
        (Num.fin 50) (Num.fin 33) (Num.fin 55)) ∧
    (33 : ℚ) / (50 + 10) ≥ 55 / 100 := by
  refine ⟨by decide!, by norm_num⟩

/-- C2 (failing inputs): with 60 held, 33 attended and 55 required the result is `low`
with `classesNeeded = 0`, which is less than 1; with 20 held, 2 attended and 55 required
the result is `low` with `classesNeeded = 21`, although 20 further classes already give
`(2 + 20) / (20 + 20) ≥ 55 / 100`. -/
theorem C2_classesNeeded_not_minimum :
    calculateAttendance "60" "33" (Num.fin 55) =
      some (Result.low (Num.fin 0) (Fixed.dec false 5500) (Fixed.dec false 5500)
        (Num.fin 60) (Num.fin 33) (Num.fin 55)) ∧
    calculateAttendance "20" "2" (Num.fin 55) =
      some (Result.low (Num.fin 21) (Fixed.dec false 1000) (Fixed.dec false 5610)
        (Num.fin 20) (Num.fin 2) (Num.fin 55)) ∧
    ((2 : ℚ) + 20) / (20 + 20) ≥ 55 / 100 := by
  refine ⟨by decide!, by decide!, by norm_num⟩

/-- C4 (failing input): with 0 held and 0 attended the result is not `null` but a `safe`
projection whose two percentages are the text `NaN`; with -5 held and -6 attended it
is a `low` projection. -/
theorem C4_zero_held_not_null :
    calculateAttendance "0" "0" (Num.fin 75) =
      some (Result.safe (Num.fin 0) Fixed.nan Fixed.nan (Num.fin 0) (Num.fin 0) (Num.fin 75)) ∧
    calculateAttendance "-5" "-6" (Num.fin 75) =
      some (Result.low (Num.fin 9) (Fixed.dec false 12000) (Fixed.dec false 7500)
        (Num.fin (-5)) (Num.fin (-6)) (Num.fin 75)) := by
  refine ⟨by decide!, by decide!⟩

/-- C6 (failing input): with 25 held, 14 attended and 56 required the current ratio
meets the requirement, `14 / 25 ≥ 56 / 100`, and the result is `low`. -/
theorem C6_low_at_threshold :
    (14 : ℚ) / 25 ≥ 56 / 100 ∧
    calculateAttendance "25" "14" (Num.fin 56) =
      some (Result.low (Num.fin 1) (Fixed.dec false 5600) (Fixed.dec false 5769)
        (Num.fin 25) (Num.fin 14) (Num.fin 56)) := by
  refine ⟨by norm_num, by decide!⟩

end KtuTools
